import Mathlib

/-!
# Verification of the llm-fid-txt upstream-fetch orchestration layer

This file is a shallow embedding, in Lean 4, of the core components of the
llm-fid-txt server (the enhanced Hono server: `RequestQueue` with circuit
breaker, `fetchWithRetry`, `CacheManager`, `BatchProcessor`, the pagination
loop of `fetchUserData`, and the streaming cast loop of the main route
handler), together with theorems settling the spec claims about them.

Conventions of the embedding:
* JavaScript `Map` objects are modelled as insertion-ordered association
  lists with unique keys (`JsMap`): `Map.prototype.set` overwrites in place,
  `delete` removes, and iteration (`entries()`) follows insertion order.
* `Date.now()` timestamps are `Nat` milliseconds.  All theorems that compare
  times assume the clock is monotone (`t0 ≤ t`), which is how `Date.now()`
  behaves between two sequenced reads.
* Cached payloads are modelled by their JSON-serialized form, a `String`;
  `JSON.stringify(data).length` is the string's length.
-/

set_option autoImplicit false

namespace LlmFid

/-! ## JavaScript `Map` as an insertion-ordered association list -/

/-- Insertion-ordered association list standing for a JavaScript `Map`
with string keys. -/
abbrev JsMap (β : Type) : Type := List (String × β)

namespace JsMap

variable {β : Type}

/-- Model of `Map.prototype.get`: the value stored under `k`, if any. -/
def get (m : JsMap β) (k : String) : Option β :=
  (List.find? (fun p => p.1 = k) m).map Prod.snd

/-- Model of `Map.prototype.set`: overwrite in place if the key is present
(keeping its position in iteration order), append otherwise. -/
def set (m : JsMap β) (k : String) (v : β) : JsMap β :=
  match m with
  | [] => [(k, v)]
  | (k', v') :: rest =>
    if k' = k then (k, v) :: rest else (k', v') :: set rest k v

/-- Model of `Map.prototype.delete`: remove the entry with key `k`, if present. -/
def del (m : JsMap β) (k : String) : JsMap β :=
  match m with
  | [] => []
  | (k', v') :: rest =>
    if k' = k then rest else (k', v') :: del rest k

@[simp] theorem get_nil (k : String) : get ([] : JsMap β) k = none := rfl

theorem get_cons (k' : String) (v' : β) (m : JsMap β) (k : String) :
    get ((k', v') :: m) k = if k' = k then some v' else get m k := by
  by_cases h : k' = k <;> simp [get, List.find?, h]

@[simp] theorem get_set_self (m : JsMap β) (k : String) (v : β) :
    get (set m k v) k = some v := by
  induction m with
  | nil => simp [set, get, List.find?]
  | cons p rest ih =>
    obtain ⟨k', v'⟩ := p
    by_cases h : k' = k
    · simp [set, h, get_cons]
    · simp [set, h, get_cons, ih]

theorem get_set_ne (m : JsMap β) (k k' : String) (v : β) (h : k ≠ k') :
    get (set m k v) k' = get m k' := by
  induction m with
  | nil => simp [set, get_cons, h]
  | cons p rest ih =>
    obtain ⟨k₀, v₀⟩ := p
    by_cases h₀ : k₀ = k
    · subst h₀; simp [set, get_cons, h]
    · simp [set, h₀, get_cons, ih]

/-- The keys of the map, in iteration order. -/
def keys (m : JsMap β) : List String := m.map Prod.fst

/-- A map is well formed when no key occurs twice.  Every map reachable
from the empty `Map` by `set` and `delete` is well formed; this mirrors the
fact that a JavaScript `Map` never holds duplicate keys. -/
def WF (m : JsMap β) : Prop := (keys m).Nodup

@[simp] theorem WF_nil : WF ([] : JsMap β) := by simp [WF, keys]

theorem WF_cons {k : String} {v : β} {m : JsMap β} (h : WF ((k, v) :: m)) : WF m :=
  (List.nodup_cons.mp (by simpa [WF, keys] using h)).2

theorem not_mem_keys_of_WF_cons {k : String} {v : β} {m : JsMap β}
    (h : WF ((k, v) :: m)) : k ∉ keys m :=
  (List.nodup_cons.mp (by simpa [WF, keys] using h)).1

theorem get_eq_none_of_not_mem_keys {m : JsMap β} {k : String}
    (h : k ∉ keys m) : get m k = none := by
  induction m with
  | nil => rfl
  | cons p rest ih =>
    obtain ⟨k₀, v₀⟩ := p
    have hk : k₀ ≠ k := by
      intro hEq; exact h (by simp [keys, hEq])
    rw [get_cons, if_neg hk]
    exact ih (fun hm => h (by simp [keys] at hm ⊢; exact Or.inr hm))

theorem get_del_self {m : JsMap β} (hwf : WF m) (k : String) :
    get (del m k) k = none := by
  induction m with
  | nil => simp [del]
  | cons p rest ih =>
    obtain ⟨k₀, v₀⟩ := p
    by_cases h₀ : k₀ = k
    · subst h₀
      simp only [del, if_pos rfl]
      exact get_eq_none_of_not_mem_keys (not_mem_keys_of_WF_cons hwf)
    · simp only [del, if_neg h₀, get_cons, if_neg h₀]
      exact ih (WF_cons hwf)

theorem keys_set (m : JsMap β) (k : String) (v : β) :
    keys (set m k v) = if k ∈ keys m then keys m else keys m ++ [k] := by
  induction m with
  | nil => simp [set, keys]
  | cons p rest ih =>
    obtain ⟨k₀, v₀⟩ := p
    by_cases h₀ : k₀ = k
    · subst h₀; simp [set, keys]
    · by_cases hmem : k ∈ keys rest
      · simp only [set, if_neg h₀, keys, List.map_cons, List.mem_cons]
        rw [show (List.map Prod.fst (set rest k v)) = keys (set rest k v) from rfl, ih]
        simp only [keys] at hmem
        simp [keys, hmem, Ne.symm h₀]
      · simp only [set, if_neg h₀, keys, List.map_cons, List.mem_cons]
        rw [show (List.map Prod.fst (set rest k v)) = keys (set rest k v) from rfl, ih]
        simp only [keys] at hmem
        simp [keys, hmem, Ne.symm h₀]

theorem WF_set {m : JsMap β} (hwf : WF m) (k : String) (v : β) :
    WF (set m k v) := by
  unfold WF
  rw [keys_set]
  by_cases hmem : k ∈ keys m
  · simpa [hmem] using hwf
  · simp only [hmem, if_false]
    exact List.Nodup.append hwf (by simp) (by simpa using fun h => hmem h)

theorem keys_del_sublist (m : JsMap β) (k : String) :
    (keys (del m k)).Sublist (keys m) := by
  induction m with
  | nil => simp [del]
  | cons p rest ih =>
    obtain ⟨k₀, v₀⟩ := p
    by_cases h₀ : k₀ = k
    · simp only [del, if_pos h₀, keys]
      exact (List.sublist_cons_self _ _)
    · simp only [del, if_neg h₀, keys, List.map_cons]
      exact List.Sublist.cons₂ _ ih

theorem WF_del {m : JsMap β} (hwf : WF m) (k : String) : WF (del m k) :=
  (keys_del_sublist m k).nodup hwf

theorem mem_of_get_eq_some {m : JsMap β} {k : String} {v : β}
    (h : get m k = some v) : (k, v) ∈ m := by
  induction m with
  | nil => simp [get, List.find?] at h
  | cons p rest ih =>
    obtain ⟨k₀, v₀⟩ := p
    by_cases h₀ : k₀ = k
    · subst h₀
      rw [get_cons, if_pos rfl] at h
      simp_all
    · rw [get_cons, if_neg h₀] at h
      exact List.mem_cons_of_mem _ (ih h)

theorem length_del_of_get_eq_some {m : JsMap β} {k : String} {v : β}
    (h : get m k = some v) : (del m k).length + 1 = m.length := by
  induction m with
  | nil => simp [get, List.find?] at h
  | cons p rest ih =>
    obtain ⟨k₀, v₀⟩ := p
    by_cases h₀ : k₀ = k
    · simp [del, h₀]
    · rw [get_cons, if_neg h₀] at h
      simp [del, h₀, ih h]

theorem get_del_ne (m : JsMap β) (k k' : String) (h : k' ≠ k) :
    get (del m k) k' = get m k' := by
  induction m with
  | nil => simp [del]
  | cons p rest ih =>
    obtain ⟨k₀, v₀⟩ := p
    by_cases h₀ : k₀ = k
    · subst h₀
      rw [del, if_pos rfl, get_cons, if_neg (fun hEq => h hEq.symm)]
    · rw [del, if_neg h₀, get_cons, get_cons]
      by_cases hk : k₀ = k'
      · simp [hk]
      · rw [if_neg hk, if_neg hk, ih]

theorem get_eq_some_of_mem_WF {m : JsMap β} (hwf : WF m) {k : String} {v : β}
    (h : (k, v) ∈ m) : get m k = some v := by
  induction m with
  | nil => simp at h
  | cons p rest ih =>
    obtain ⟨k₀, v₀⟩ := p
    rcases List.mem_cons.mp h with hEq | hMem
    · obtain ⟨rfl, rfl⟩ := Prod.mk.injEq .. ▸ hEq
      simp_all [get_cons]
    · have hk : k₀ ≠ k := by
        intro hEq; subst hEq
        exact not_mem_keys_of_WF_cons hwf (by simpa [keys] using List.mem_map_of_mem Prod.fst hMem)
      rw [get_cons, if_neg hk]
      exact ih (WF_cons hwf) hMem

theorem del_sublist (m : JsMap β) (k : String) : (del m k).Sublist m := by
  induction m with
  | nil => simp [del]
  | cons p rest ih =>
    obtain ⟨k₀, v₀⟩ := p
    by_cases h₀ : k₀ = k
    · simp only [del, if_pos h₀]
      exact List.sublist_cons_self _ _
    · simp only [del, if_neg h₀]
      exact List.Sublist.cons₂ _ ih

theorem length_del_lt_of_mem {m : JsMap β} {k : String} {v : β}
    (h : (k, v) ∈ m) : (del m k).length < m.length := by
  induction m with
  | nil => simp at h
  | cons p rest ih =>
    obtain ⟨k₀, v₀⟩ := p
    by_cases h₀ : k₀ = k
    · simp [del, h₀]
    · rw [del, if_neg h₀]
      have hMem : (k, v) ∈ rest := by
        rcases List.mem_cons.mp h with hEq | hMem
        · exact absurd (congrArg Prod.fst hEq.symm) h₀
        · exact hMem
      simpa using ih hMem

end JsMap

/-! ## `CacheManager` (enhanced server)

The `CacheManager` class holds `cache : Map<string, {data, timestamp, etag}>`
and a running counter `size`.  Payloads are modelled by their
JSON-serialized form (a `String`, whose `length` is
`JSON.stringify(data).length`).  The `etag` field (a SHA-256 fingerprint
computed in `set`) is carried by the source purely for observability; it is
never read by `get`, `set` or anything else in the file, so the embedding
omits it. -/

/-- Constant `CACHE_CONFIG.STALE_WHILE_REVALIDATE` (5 minutes, in ms). -/
def STALE_WHILE_REVALIDATE : Nat := 5 * 60 * 1000

/-- Constant `CACHE_CONFIG.MAX_CACHE_ITEMS`. -/
def MAX_CACHE_ITEMS : Nat := 1000

/-- Constant `CACHE_CONFIG.MAX_CACHE_SIZE` (5 MB). -/
def MAX_CACHE_SIZE : Nat := 5 * 1024 * 1024

/-- One entry of `CacheManager.cache`: serialized payload + insertion
timestamp (ms).  The unread `etag` field is omitted. -/
structure CacheEntry where
  data : String
  timestamp : Nat
deriving DecidableEq

/-- The mutable state of a `CacheManager`: the map plus the running
total-size counter (`this.size`, a JS number, hence `Int`). -/
structure CacheState where
  cache : JsMap CacheEntry
  size : Int
deriving DecidableEq

namespace CacheManager

/-- Model of the sort in the eviction loop,
which orders `this.cache.entries()` by `a.timestamp - b.timestamp`: a
stable sort of the entries by ascending insertion timestamp. -/
def sortByTs (m : JsMap CacheEntry) : List (String × CacheEntry) :=
  m.mergeSort (fun a b => decide (a.2.timestamp ≤ b.2.timestamp))

/-- The eviction `while` loop inside `CacheManager.set`: while inserting
`n` more bytes would exceed the size ceiling, or the item count is at the
item ceiling, delete the entry with the smallest timestamp (breaking when
the cache is empty). -/
def evictLoop (n : Nat) (s : CacheState) : CacheState :=
  if s.size + (n : Int) > (MAX_CACHE_SIZE : Int) ∨ s.cache.length ≥ MAX_CACHE_ITEMS then
    match hs : sortByTs s.cache with
    | [] => s
    | (k, e) :: _ =>
      evictLoop n ⟨JsMap.del s.cache k, s.size - (e.data.length : Int)⟩
  else s
termination_by s.cache.length
decreasing_by
  have hmem : (k, e) ∈ s.cache := by
    have hin : (k, e) ∈ sortByTs s.cache := by
      rw [hs]; exact List.mem_cons_self _ _
    simpa [sortByTs] using hin
  simpa using JsMap.length_del_lt_of_mem hmem

/-- Model of `CacheManager.get(key, ttl)` at time `now`: absent once the age exceeds
`ttl + STALE_WHILE_REVALIDATE` (deleting the entry and shrinking the size
counter as a side effect), otherwise the data together with the staleness
flag `age > ttl`. -/
def get (s : CacheState) (key : String) (ttl now : Nat) :
    Option (String × Bool) × CacheState :=
  match JsMap.get s.cache key with
  | none => (none, s)
  | some e =>
    let age := now - e.timestamp
    if age > ttl + STALE_WHILE_REVALIDATE then
      (none, ⟨JsMap.del s.cache key, s.size - (e.data.length : Int)⟩)
    else
      (some (e.data, decide (age > ttl)), s)

/-- Model of `CacheManager.set(key, data, ttl)` at time `now`: run the eviction
loop for the incoming serialized size, then insert/overwrite the entry
and add the new size to the counter.  (`ttl` is accepted and ignored,
as in the source.) -/
def set (s : CacheState) (key data : String) (ttl now : Nat) : CacheState :=
  let n := data.length
  let s' := evictLoop n s
  ⟨JsMap.set s'.cache key ⟨data, now⟩, s'.size + (n : Int)⟩

theorem sortByTs_eq_nil_iff {m : JsMap CacheEntry} : sortByTs m = [] ↔ m = [] := by
  constructor
  · intro h
    have hp := List.mergeSort_perm m (fun a b => decide (a.2.timestamp ≤ b.2.timestamp))
    rw [show List.mergeSort m (fun a b => decide (a.2.timestamp ≤ b.2.timestamp))
        = sortByTs m from rfl, h] at hp
    exact hp.symm.eq_nil
  · intro h; subst h; simp [sortByTs]

theorem evictLoop_nil (n : Nat) (z : Int) : evictLoop n ⟨[], z⟩ = ⟨[], z⟩ := by
  rw [evictLoop]
  split
  · split
    · rfl
    · next k e tail hs =>
      simp [sortByTs] at hs
  · rfl

theorem evictLoop_cache_sublist (n : Nat) (s : CacheState) :
    ((evictLoop n s).cache).Sublist s.cache := by
  induction s using evictLoop.induct n with
  | case1 x hcond hs =>
    rw [evictLoop, if_pos hcond]
    split
    · exact List.Sublist.refl _
    · next k e tail hs2 =>
      rw [hs] at hs2; exact absurd hs2 (by simp)
  | case2 x hcond k e tail hs ih =>
    rw [evictLoop, if_pos hcond]
    split
    · exact List.Sublist.refl _
    · next k2 e2 tail2 hs2 =>
      rw [hs] at hs2
      obtain ⟨hk, he, ht⟩ : k = k2 ∧ e = e2 ∧ tail = tail2 := by
        injection hs2 with h1 h2
        injection h1 with hk he
        exact ⟨hk, he, h2⟩
      subst hk; subst he
      exact ih.trans (JsMap.del_sublist x.cache k)
  | case3 x hcond =>
    rw [evictLoop, if_neg hcond]

theorem sortByTs_sorted (m : JsMap CacheEntry) :
    (sortByTs m).Pairwise (fun a b => decide (a.2.timestamp ≤ b.2.timestamp) = true) := by
  have := @List.sorted_mergeSort (String × CacheEntry)
    (fun a b => decide (a.2.timestamp ≤ b.2.timestamp))
    (by intro a b c hab hbc; simp_all; omega)
    (by intro a b; simp [Bool.or_eq_true]; omega) m
  simpa [sortByTs] using this

theorem sortByTs_head_min {m : JsMap CacheEntry}
    {k : String} {e : CacheEntry} {tail : List (String × CacheEntry)}
    (hs : sortByTs m = (k, e) :: tail) :
    ∀ p ∈ m, e.timestamp ≤ p.2.timestamp := by
  intro p hp
  have hmem : p ∈ sortByTs m := by simpa [sortByTs] using hp
  rw [hs] at hmem
  rcases List.mem_cons.mp hmem with hEq | hMem
  · subst hEq; exact le_refl _
  · have hsorted := sortByTs_sorted m
    rw [hs] at hsorted
    have := (List.pairwise_cons.mp hsorted).1 p hMem
    simpa using this

/-- After the eviction loop, either both ceilings accommodate the incoming
`n` bytes, or the loop emptied the cache (the `entries.length === 0` break). -/
theorem evictLoop_post (n : Nat) (s : CacheState) :
    ((evictLoop n s).size + (n : Int) ≤ (MAX_CACHE_SIZE : Int)
      ∧ (evictLoop n s).cache.length < MAX_CACHE_ITEMS)
    ∨ (evictLoop n s).cache = [] := by
  induction s using evictLoop.induct n with
  | case1 x hcond hs =>
    right
    rw [evictLoop, if_pos hcond]
    split
    · exact sortByTs_eq_nil_iff.mp hs
    · next k2 e2 tail2 hs2 =>
      rw [hs] at hs2; simp at hs2
  | case2 x hcond k e tail hs ih =>
    have heval : evictLoop n x
        = evictLoop n ⟨x.cache.del k, x.size - (e.data.length : Int)⟩ := by
      rw [evictLoop, if_pos hcond]
      split
      · next hs2 => rw [hs] at hs2; simp at hs2
      · next k2 e2 tail2 hs2 =>
        rw [hs] at hs2
        injection hs2 with h1 h2
        injection h1 with hk he
        subst hk; subst he; rfl
    rw [heval]
    exact ih
  | case3 x hcond =>
    left
    rw [evictLoop, if_neg hcond]
    push_neg at hcond
    exact ⟨hcond.1, by omega⟩

/-- Entries removed by the eviction loop are never younger than entries it
keeps: the loop always deletes a minimal-timestamp entry first. -/
theorem evictLoop_oldest_first (n : Nat) (s : CacheState) (hwf : JsMap.WF s.cache) :
    ∀ k e, JsMap.get s.cache k = some e →
      JsMap.get (evictLoop n s).cache k = none →
    ∀ k2 e2, JsMap.get (evictLoop n s).cache k2 = some e2 →
      e.timestamp ≤ e2.timestamp := by
  revert hwf
  induction s using evictLoop.induct n with
  | case1 x hcond hs =>
    intro hwf k e hget hgone k2 e2 hsurv
    have hnil : x.cache = [] := sortByTs_eq_nil_iff.mp hs
    rw [hnil] at hget
    simp at hget
  | case2 x hcond k0 e0 tail hs ih =>
    intro hwf k e hget hgone k2 e2 hsurv
    have heval : evictLoop n x
        = evictLoop n ⟨x.cache.del k0, x.size - (e0.data.length : Int)⟩ := by
      rw [evictLoop, if_pos hcond]
      split
      · next hs2 => rw [hs] at hs2; simp at hs2
      · next k3 e3 tail3 hs3 =>
        rw [hs] at hs3
        injection hs3 with h1 h2
        injection h1 with hk he
        subst hk; subst he; rfl
    rw [heval] at hgone hsurv
    have hsurv_mem : (k2, e2) ∈ x.cache := by
      have h1 := JsMap.mem_of_get_eq_some hsurv
      have h2 := (evictLoop_cache_sublist n
        ⟨x.cache.del k0, x.size - (e0.data.length : Int)⟩).subset h1
      exact (JsMap.del_sublist x.cache k0).subset h2
    by_cases hkk : k = k0
    · subst hkk
      have hmem0 : (k, e0) ∈ x.cache := by
        have hin : (k, e0) ∈ sortByTs x.cache := by
          rw [hs]; exact List.mem_cons_self _ _
        simpa [sortByTs] using hin
      have hge : JsMap.get x.cache k = some e0 := JsMap.get_eq_some_of_mem_WF hwf hmem0
      rw [hget] at hge
      injection hge with he
      subst he
      exact sortByTs_head_min hs (k2, e2) hsurv_mem
    · have hget2 : JsMap.get (x.cache.del k0) k = some e := by
        rw [JsMap.get_del_ne x.cache k0 k hkk]; exact hget
      exact ih (JsMap.WF_del hwf k0) k e hget2 hgone k2 e2 hsurv
  | case3 x hcond =>
    intro hwf k e hget hgone k2 e2 hsurv
    rw [evictLoop, if_neg hcond] at hgone
    rw [hget] at hgone
    simp at hgone

theorem WF_evictLoop (n : Nat) (s : CacheState) (hwf : JsMap.WF s.cache) :
    JsMap.WF (evictLoop n s).cache :=
  ((evictLoop_cache_sublist n s).map Prod.fst).nodup hwf

end CacheManager

theorem length_jsSet_le {β : Type} (m : JsMap β) (k : String) (v : β) :
    (JsMap.set m k v).length ≤ m.length + 1 := by
  induction m with
  | nil => simp [JsMap.set]
  | cons p rest ih =>
    obtain ⟨k0, v0⟩ := p
    by_cases h0 : k0 = k
    · simp [JsMap.set, h0]
    · simp only [JsMap.set, if_neg h0, List.length_cons]
      omega

/-! ## Claims C4 and C5 -/

/-- Claim C4 (confirmed).  For every cache key and TTL: `get` after `set`
returns the exact value written with `isStale = false` while the entry's
age is at most TTL; returns the same value with `isStale = true` while the
age is greater than TTL but at most TTL plus the stale-while-revalidate
window; and once the age exceeds TTL plus the window, `get` returns absent
and evicts the entry as a side effect. -/
theorem claim_C4 (s : CacheState) (hwf : JsMap.WF s.cache)
    (key data : String) (ttl t0 t : Nat) (hle : t0 ≤ t) :
    ((t - t0 ≤ ttl →
        CacheManager.get (CacheManager.set s key data ttl t0) key ttl t
          = (some (data, false), CacheManager.set s key data ttl t0)) ∧
     (ttl < t - t0 → t - t0 ≤ ttl + STALE_WHILE_REVALIDATE →
        CacheManager.get (CacheManager.set s key data ttl t0) key ttl t
          = (some (data, true), CacheManager.set s key data ttl t0)) ∧
     (ttl + STALE_WHILE_REVALIDATE < t - t0 →
        (CacheManager.get (CacheManager.set s key data ttl t0) key ttl t).1 = none ∧
        JsMap.get
          (CacheManager.get (CacheManager.set s key data ttl t0) key ttl t).2.cache key
          = none)) := by
  have hlook : JsMap.get (CacheManager.set s key data ttl t0).cache key
      = some ⟨data, t0⟩ := by
    simp [CacheManager.set]
  have hwf1 : JsMap.WF (CacheManager.set s key data ttl t0).cache := by
    simp only [CacheManager.set]
    exact JsMap.WF_set (CacheManager.WF_evictLoop _ _ hwf) _ _
  refine ⟨?fresh, ?stale, ?gone⟩
  case fresh =>
    intro hage
    rw [CacheManager.get, hlook]
    simp only []
    rw [if_neg (by omega)]
    have hd : decide (t - t0 > ttl) = false := by simp; omega
    rw [hd]
  case stale =>
    intro h1 h2
    rw [CacheManager.get, hlook]
    simp only []
    rw [if_neg (by omega)]
    have hd : decide (t - t0 > ttl) = true := by simp; omega
    rw [hd]
  case gone =>
    intro h1
    rw [CacheManager.get, hlook]
    simp only []
    rw [if_pos (by omega)]
    exact ⟨rfl, JsMap.get_del_self hwf1 key⟩

/-- Witness for C4: a concrete `set` at time 0 followed by a `get` at time
500 with TTL 1000 returns the stored value, fresh, and leaves the state
untouched. -/
theorem claim_C4_witness :
    CacheManager.get (CacheManager.set ⟨[], 0⟩ "k" "v" 1000 0) "k" 1000 500
      = (some ("v", false), CacheManager.set ⟨[], 0⟩ "k" "v" 1000 0) :=
  (claim_C4 ⟨[], 0⟩ (by exact JsMap.WF_nil) "k" "v" 1000 0 500 (by omega)).1 (by omega)

/-- A serialized payload one byte larger than the 5 MB size ceiling. -/
def oversizedPayload : String := String.mk (List.replicate (MAX_CACHE_SIZE + 1) 'a')

theorem oversizedPayload_length : oversizedPayload.length = MAX_CACHE_SIZE + 1 := by
  simp [oversizedPayload, String.length]

/-- Counterexample to claim C5 as stated: inserting a single value whose
serialized size exceeds the 5 MB ceiling into an empty cache completes the
`set` with a total size of 5 MB + 1, so the size ceiling does not hold
after every completed `set`. -/
theorem claim_C5_counterexample :
    ¬ ((CacheManager.set ⟨[], 0⟩ "k" oversizedPayload 60000 0).size
        ≤ (MAX_CACHE_SIZE : Int)) := by
  have hset : CacheManager.set ⟨[], 0⟩ "k" oversizedPayload 60000 0
      = ⟨[("k", ⟨oversizedPayload, 0⟩)], (0 : Int) + (oversizedPayload.length : Int)⟩ := by
    show (⟨JsMap.set (CacheManager.evictLoop oversizedPayload.length ⟨[], 0⟩).cache
        "k" ⟨oversizedPayload, 0⟩,
      (CacheManager.evictLoop oversizedPayload.length ⟨[], 0⟩).size
        + (oversizedPayload.length : Int)⟩ : CacheState) = _
    rw [CacheManager.evictLoop_nil]
    rfl
  rw [hset]
  simp [oversizedPayload_length, MAX_CACHE_SIZE]

/-- Claim C5 (corrected).  After every completed `set`, the item count is
at most the 1000-entry ceiling, and either the size counter is at most the
5 MB ceiling or the eviction loop emptied the cache (so the cache holds
exactly the single just-inserted entry, whose serialized size may alone
exceed the ceiling — the case refuting the claim as stated); eviction
proceeds in ascending insertion-timestamp order, so any entry evicted by
the `set` is at most as young as every pre-existing entry that survives. -/
theorem claim_C5 (s : CacheState) (hwf : JsMap.WF s.cache)
    (key data : String) (ttl now : Nat) :
    ((CacheManager.set s key data ttl now).cache.length ≤ MAX_CACHE_ITEMS) ∧
    ((CacheManager.set s key data ttl now).size ≤ (MAX_CACHE_SIZE : Int)
      ∨ (CacheManager.set s key data ttl now).cache = [(key, ⟨data, now⟩)]) ∧
    (∀ k e, k ≠ key → JsMap.get s.cache k = some e →
      JsMap.get (CacheManager.set s key data ttl now).cache k = none →
      ∀ k2 e2, k2 ≠ key →
        JsMap.get (CacheManager.set s key data ttl now).cache k2 = some e2 →
        e.timestamp ≤ e2.timestamp) := by
  have hpost := CacheManager.evictLoop_post data.length s
  refine ⟨?count, ?size, ?order⟩
  case count =>
    show (JsMap.set (CacheManager.evictLoop data.length s).cache key ⟨data, now⟩).length ≤ _
    rcases hpost with ⟨hsz, hlen⟩ | hempty
    · calc (JsMap.set (CacheManager.evictLoop data.length s).cache key ⟨data, now⟩).length
          ≤ (CacheManager.evictLoop data.length s).cache.length + 1 := length_jsSet_le _ _ _
        _ ≤ MAX_CACHE_ITEMS := by omega
    · rw [hempty]
      simp [JsMap.set, MAX_CACHE_ITEMS]
  case size =>
    rcases hpost with ⟨hsz, hlen⟩ | hempty
    · left
      show (CacheManager.evictLoop data.length s).size + (data.length : Int) ≤ _
      exact hsz
    · right
      show JsMap.set (CacheManager.evictLoop data.length s).cache key ⟨data, now⟩ = _
      rw [hempty]
      rfl
  case order =>
    intro k e hk hget hgone k2 e2 hk2 hsurv
    have hgone2 : JsMap.get (CacheManager.evictLoop data.length s).cache k = none := by
      have h := hgone
      rw [show (CacheManager.set s key data ttl now).cache
          = JsMap.set (CacheManager.evictLoop data.length s).cache key ⟨data, now⟩
          from rfl] at h
      rwa [JsMap.get_set_ne _ _ _ _ (fun hEq => hk hEq.symm)] at h
    have hsurv2 : JsMap.get (CacheManager.evictLoop data.length s).cache k2 = some e2 := by
      have h := hsurv
      rw [show (CacheManager.set s key data ttl now).cache
          = JsMap.set (CacheManager.evictLoop data.length s).cache key ⟨data, now⟩
          from rfl] at h
      rwa [JsMap.get_set_ne _ _ _ _ (fun hEq => hk2 hEq.symm)] at h
    exact CacheManager.evictLoop_oldest_first data.length s hwf k e hget hgone2 k2 e2 hsurv2

/-- Witness for C5: a concrete `set` into a one-entry cache keeps the item
count within the 1000-entry ceiling. -/
theorem claim_C5_witness :
    (CacheManager.set ⟨[("a", ⟨"x", 5⟩)], 1⟩ "k" "v" 1000 7).cache.length
      ≤ MAX_CACHE_ITEMS :=
  (claim_C5 ⟨[("a", ⟨"x", 5⟩)], 1⟩ (by simp [JsMap.WF, JsMap.keys]) "k" "v" 1000 7).1

/-! ## RequestQueue circuit breaker

The `RequestQueue` class keeps, per endpoint URL, a consecutive-failure
count (`failures : Map`) and the time of the last recorded failure
(`lastFailureTime : Map`).  A queued task first consults `isCircuitOpen`;
an open circuit throws (`Circuit breaker open`), which the task's own
`catch` then records as a failure like any other.  The latency window
(`responseTimes`) and the adaptive delay (`currentDelay`) influence only
the spacing of dispatches, never the circuit decision, and the worker
counter only when a task starts, so they are omitted from the circuit
state. -/

/-- Constant `CIRCUIT_BREAKER_CONFIG.failureThreshold`. -/
def failureThreshold : Nat := 5

/-- Constant `CIRCUIT_BREAKER_CONFIG.resetTimeout` (30 s, in ms). -/
def resetTimeout : Nat := 30000

/-- Constant `CIRCUIT_BREAKER_CONFIG.halfOpenTimeout` (10 s, in ms). -/
def halfOpenTimeout : Nat := 10000

/-- Circuit-relevant state of a `RequestQueue`: the two per-endpoint maps. -/
structure RQState where
  failures : JsMap Nat
  lastFailureTime : JsMap Nat
deriving DecidableEq

namespace RequestQueue

/-- Reading `this.failures.get(endpoint) || 0`. -/
def failuresOf (q : RQState) (ep : String) : Nat := (JsMap.get q.failures ep).getD 0

/-- Reading `this.lastFailureTime.get(endpoint) || 0`. -/
def lastFailureOf (q : RQState) (ep : String) : Nat := (JsMap.get q.lastFailureTime ep).getD 0

/-- Model of `RequestQueue.isCircuitOpen(endpoint)` at time `now`.  Besides
the Boolean verdict it returns the (possibly mutated) state: when the full
`resetTimeout + halfOpenTimeout` window has elapsed, the method resets the
failure count to zero as a side effect. -/
def isCircuitOpen (q : RQState) (ep : String) (now : Nat) : Bool × RQState :=
  if failuresOf q ep ≥ failureThreshold then
    if now - lastFailureOf q ep < resetTimeout then (true, q)
    else if now - lastFailureOf q ep < resetTimeout + halfOpenTimeout then (false, q)
    else (false, { q with failures := JsMap.set q.failures ep 0 })
  else (false, q)

/-- Outcome of one queued task, as observable by the caller. -/
inductive DispatchOutcome where
  | success
  | failure
  | rejected
deriving DecidableEq

/-- The `catch` branch of the queued task: increment the endpoint's failure
count and stamp the failure time. -/
def recordFailure (q : RQState) (ep : String) (now : Nat) : RQState :=
  { failures := JsMap.set q.failures ep (failuresOf q ep + 1),
    lastFailureTime := JsMap.set q.lastFailureTime ep now }

/-- Model of one queued task of `RequestQueue.add` running at time `now`:
check the circuit (rejecting with `Circuit breaker open`, which the `catch`
records as a failure), otherwise run the operation; success zeroes the
failure count, failure records one. -/
def runTask (q : RQState) (ep : String) (now : Nat) (opSucceeds : Bool) :
    RQState × DispatchOutcome :=
  let r := isCircuitOpen q ep now
  if r.1 then (recordFailure r.2 ep now, .rejected)
  else if opSucceeds then
    ({ r.2 with failures := JsMap.set r.2.failures ep 0 }, .success)
  else (recordFailure r.2 ep now, .failure)

/-- Run a sequence of dispatches `(time, operation succeeds?)` against one
endpoint, sequentially. -/
def runTrace (q : RQState) (ep : String) : List (Nat × Bool) → RQState
  | [] => q
  | (t, b) :: rest => runTrace (runTask q ep t b).1 ep rest

@[simp] theorem failuresOf_recordFailure (q : RQState) (ep : String) (now : Nat) :
    failuresOf (recordFailure q ep now) ep = failuresOf q ep + 1 := by
  simp [failuresOf, recordFailure]

@[simp] theorem lastFailureOf_recordFailure (q : RQState) (ep : String) (now : Nat) :
    lastFailureOf (recordFailure q ep now) ep = now := by
  simp [lastFailureOf, recordFailure]

@[simp] theorem failuresOf_set_self (f l : JsMap Nat) (ep : String) (v : Nat) :
    failuresOf ⟨JsMap.set f ep v, l⟩ ep = v := by
  simp [failuresOf]

@[simp] theorem lastFailureOf_mk (q : RQState) (f : JsMap Nat) (ep : String) :
    lastFailureOf ⟨f, q.lastFailureTime⟩ ep = lastFailureOf q ep := by
  simp [lastFailureOf]

end RequestQueue

/-! ## Claim C2 -/

/-- The circuit state after five consecutive operation failures on
endpoint `"ep"` at times 0..4 (ms): failure count 5, last failure at 4. -/
def circuitAfterFiveFailures : RQState :=
  RequestQueue.runTrace ⟨[], []⟩ "ep"
    [(0, false), (1, false), (2, false), (3, false), (4, false)]

/-- The trial dispatch: the first dispatch after the circuit opened, sent
at time 50004 (50 s after the last failure, so past
`resetTimeout + halfOpenTimeout`), whose operation fails. -/
def circuitTrialDispatch : RQState × RequestQueue.DispatchOutcome :=
  RequestQueue.runTask circuitAfterFiveFailures "ep" 50004 false

/-- Counterexample to claim C2 as stated.  After the threshold of 5
consecutive failures is reached (last one at t = 4 ms), the first dispatch
after `resetTimeout` has elapsed — the claim's single half-open trial — is
allowed and fails at t = 50004.  The claim then requires the circuit to
return to open and reject new dispatches for another `resetTimeout`; but
the very next dispatch, 6 ms later, is dispatched (and fails) instead of
being rejected, because `isCircuitOpen` silently reset the failure count to
zero once `resetTimeout + halfOpenTimeout` had elapsed, leaving the
circuit closed with a count of 1 after the failed trial. -/
theorem claim_C2_counterexample :
    RequestQueue.failuresOf circuitAfterFiveFailures "ep" = 5
    ∧ RequestQueue.lastFailureOf circuitAfterFiveFailures "ep" = 4
    ∧ circuitTrialDispatch.2 = .failure
    ∧ (RequestQueue.runTask circuitTrialDispatch.1 "ep" 50010 false).2 ≠ .rejected
    ∧ (RequestQueue.runTask circuitTrialDispatch.1 "ep" 50010 false).2 = .failure := by
  decide

/-- Claim C2 (corrected).  For every endpoint and state: a dispatch is
rejected exactly when the recorded consecutive-failure count has reached
the threshold (5) and less than `resetTimeout` (30 s) has passed since the
last recorded failure; a dispatch succeeds exactly when it is not rejected
and its operation succeeds, and then the failure count is zeroed with the
failure timestamp untouched; any non-success (operation failure or
rejection) sets the failure timestamp to `now` and sets the count to one
more than the prior count — except that when at least
`resetTimeout + halfOpenTimeout` (40 s) had elapsed with the count at the
threshold, the count was first silently reset to zero (so a failure there
leaves the circuit closed with count 1, and rejections themselves restart
the open window). -/
theorem claim_C2 (q : RQState) (ep : String) (now : Nat) (opSucceeds : Bool) :
    ((RequestQueue.runTask q ep now opSucceeds).2 = .rejected
        ↔ failureThreshold ≤ RequestQueue.failuresOf q ep
          ∧ now - RequestQueue.lastFailureOf q ep < resetTimeout)
    ∧ ((RequestQueue.runTask q ep now opSucceeds).2 = .success
        ↔ ¬(failureThreshold ≤ RequestQueue.failuresOf q ep
            ∧ now - RequestQueue.lastFailureOf q ep < resetTimeout)
          ∧ opSucceeds = true)
    ∧ ((RequestQueue.runTask q ep now opSucceeds).2 = .success →
        RequestQueue.failuresOf (RequestQueue.runTask q ep now opSucceeds).1 ep = 0
        ∧ RequestQueue.lastFailureOf (RequestQueue.runTask q ep now opSucceeds).1 ep
          = RequestQueue.lastFailureOf q ep)
    ∧ ((RequestQueue.runTask q ep now opSucceeds).2 ≠ .success →
        RequestQueue.failuresOf (RequestQueue.runTask q ep now opSucceeds).1 ep
          = (if failureThreshold ≤ RequestQueue.failuresOf q ep
                ∧ resetTimeout + halfOpenTimeout ≤ now - RequestQueue.lastFailureOf q ep
             then 0 else RequestQueue.failuresOf q ep) + 1
        ∧ RequestQueue.lastFailureOf (RequestQueue.runTask q ep now opSucceeds).1 ep
          = now) := by
  by_cases h1 : RequestQueue.failuresOf q ep ≥ failureThreshold
  · by_cases h2 : now - RequestQueue.lastFailureOf q ep < resetTimeout
    · cases opSucceeds <;>
        simp [RequestQueue.runTask, RequestQueue.isCircuitOpen, h1, h2] <;>
        (try split_ifs) <;> omega
    · by_cases h3 : now - RequestQueue.lastFailureOf q ep < resetTimeout + halfOpenTimeout
      · cases opSucceeds <;>
          simp [RequestQueue.runTask, RequestQueue.isCircuitOpen, h1, h2, h3] <;>
          (try split_ifs) <;> (try omega)
      · cases opSucceeds <;>
          simp [RequestQueue.runTask, RequestQueue.isCircuitOpen, h1, h2, h3] <;>
          (try split_ifs) <;> (try omega)
  · cases opSucceeds <;>
      simp [RequestQueue.runTask, RequestQueue.isCircuitOpen, h1] <;>
      (try split_ifs) <;> omega

/-- Witness for C2: with the failure count at the threshold and only
100 ms since the last failure, a dispatch is rejected. -/
theorem claim_C2_witness :
    (RequestQueue.runTask ⟨[("ep", 5)], [("ep", 0)]⟩ "ep" 100 false).2 = .rejected :=
  (claim_C2 ⟨[("ep", 5)], [("ep", 0)]⟩ "ep" 100 false).1.mpr (by decide)

/-! ## fetchWithRetry and the retry policy

The enhanced server dispatches every upstream call as
`fetchWithTimeout(url) = requestQueue.add(() => fetchWithRetry(url), url)`.
`fetchWithRetry` retries an HTTP 429 response after an exponential backoff
delay; an `AbortError` (the 10 s absolute timeout) is converted into a
plain `Request timed out` error and rethrown without retrying, and other
HTTP failures throw.  The attempts of one call are driven by an oracle
mapping the attempt index (the source's `retryCount`) to that attempt's
outcome; `httpError` stands for a non-2xx response other than 429 whose
status text and body do not contain the substring `429`. -/

/-- Constant `MAX_RETRIES`. -/
def MAX_RETRIES : Nat := 3

/-- Constant `INITIAL_RETRY_DELAY` (1 s, in ms). -/
def INITIAL_RETRY_DELAY : Nat := 1000

/-- Outcome of a single upstream fetch attempt. -/
inductive FetchOutcome where
  | ok
  | rateLimited
  | httpError
  | timeout
deriving DecidableEq

/-- Observable behaviour of one `fetchWithRetry` call: how many upstream
attempts it made, which backoff sleeps it performed (in ms, in order), and
whether it finally returned a response. -/
structure RetryTrace where
  attempts : Nat
  delays : List Nat
  succeeded : Bool
deriving DecidableEq

/-- Model of `fetchWithRetry(url, options, retryCount)`: attempt
`retryCount`; on 429 with `retryCount < MAX_RETRIES`, sleep
`INITIAL_RETRY_DELAY * 2 ^ retryCount` and recurse; a timeout or any other
failure throws without retrying. -/
def fetchWithRetry (oracle : Nat → FetchOutcome) (retryCount : Nat) : RetryTrace :=
  match oracle retryCount with
  | .ok => ⟨1, [], true⟩
  | .rateLimited =>
    if h : retryCount < MAX_RETRIES then
      let r := fetchWithRetry oracle (retryCount + 1)
      ⟨r.attempts + 1, INITIAL_RETRY_DELAY * 2 ^ retryCount :: r.delays, r.succeeded⟩
    else ⟨1, [], false⟩
  | .httpError => ⟨1, [], false⟩
  | .timeout => ⟨1, [], false⟩
termination_by MAX_RETRIES - retryCount
decreasing_by omega

/-- Model of the enhanced `fetchWithTimeout(url)`:
`requestQueue.add(() => fetchWithRetry(url, options), url)`.  The queued
task consults the circuit breaker once; if open it rejects (no upstream
attempt, `none`), otherwise the whole retry chain runs as this one task
and its settled result is recorded against the circuit. -/
def fetchWithTimeout (q : RQState) (ep : String) (now : Nat) (oracle : Nat → FetchOutcome) :
    RQState × Option RetryTrace :=
  let r := RequestQueue.isCircuitOpen q ep now
  if r.1 then (RequestQueue.recordFailure r.2 ep now, none)
  else
    let t := fetchWithRetry oracle 0
    if t.succeeded then ({ r.2 with failures := JsMap.set r.2.failures ep 0 }, some t)
    else (RequestQueue.recordFailure r.2 ep now, some t)

/-! ## Claim C3 -/

/-- Counterexample to claim C3 as stated: a request that exceeds the
absolute timeout on its first attempt is not retried at all — one single
attempt, no backoff sleeps, final failure — although the claim requires a
timed-out operation to be retried up to the retry ceiling (which would
mean `MAX_RETRIES + 1 = 4` attempts when the timeout persists). -/
theorem claim_C3_counterexample :
    (fetchWithRetry (fun _ => .timeout) 0).attempts = 1
    ∧ (fetchWithRetry (fun _ => .timeout) 0).delays = []
    ∧ (fetchWithRetry (fun _ => .timeout) 0).succeeded = false
    ∧ (fetchWithRetry (fun _ => .timeout) 0).attempts ≠ MAX_RETRIES + 1 := by
  rw [fetchWithRetry]
  exact ⟨rfl, rfl, rfl, by decide⟩

/-- Claim C3 (corrected).  Only an upstream 429 (`too many requests`)
response is retried, up to the retry ceiling of 3 retries, with
exponential backoff sleeps of 1 s, 2 s and 4 s; a timed-out request and
any other upstream failure surface immediately without retry.  The circuit
breaker is consulted exactly once per dispatched operation — before the
first attempt — and the retries run inside that single queued task, so no
retry passes through the circuit check again (an open circuit instead
prevents even the first attempt). -/
theorem claim_C3 (oracle : Nat → FetchOutcome) (q : RQState) (ep : String) (now : Nat) :
    ((∀ k, oracle k = .rateLimited) →
        fetchWithRetry oracle 0 = ⟨4, [1000, 2000, 4000], false⟩)
    ∧ (∀ rc, oracle rc = .timeout → fetchWithRetry oracle rc = ⟨1, [], false⟩)
    ∧ (∀ rc, oracle rc = .httpError → fetchWithRetry oracle rc = ⟨1, [], false⟩)
    ∧ (oracle 0 = .rateLimited → oracle 1 = .ok →
        fetchWithRetry oracle 0 = ⟨2, [1000], true⟩)
    ∧ ((fetchWithTimeout q ep now oracle).2 = none
        ↔ (RequestQueue.isCircuitOpen q ep now).1 = true)
    ∧ ((RequestQueue.isCircuitOpen q ep now).1 = false →
        (fetchWithTimeout q ep now oracle).2 = some (fetchWithRetry oracle 0)) := by
  refine ⟨?chain, ?tmo, ?herr, ?once, ?rej, ?disp⟩
  case chain =>
    intro h
    rw [fetchWithRetry, h 0]
    simp only [dif_pos (by decide : 0 < MAX_RETRIES)]
    rw [fetchWithRetry, h 1]
    simp only [dif_pos (by decide : 1 < MAX_RETRIES)]
    rw [fetchWithRetry, h 2]
    simp only [dif_pos (by decide : 2 < MAX_RETRIES)]
    rw [fetchWithRetry, h 3]
    simp only [dif_neg (by decide : ¬ 3 < MAX_RETRIES)]
    rfl
  case tmo =>
    intro rc h
    rw [fetchWithRetry, h]
  case herr =>
    intro rc h
    rw [fetchWithRetry, h]
  case once =>
    intro h0 h1
    rw [fetchWithRetry, h0]
    simp only [dif_pos (by decide : 0 < MAX_RETRIES)]
    rw [fetchWithRetry, h1]
    rfl
  case rej =>
    unfold fetchWithTimeout
    cases hb : (RequestQueue.isCircuitOpen q ep now).1 <;> simp [hb]
    split <;> simp
  case disp =>
    intro hb
    unfold fetchWithTimeout
    simp [hb]
    split <;> simp

/-- Witness for C3: an upstream that answers 429 on every attempt yields
exactly four attempts with backoff sleeps of 1 s, 2 s and 4 s, then
failure. -/
theorem claim_C3_witness :
    fetchWithRetry (fun _ => .rateLimited) 0 = ⟨4, [1000, 2000, 4000], false⟩ :=
  (claim_C3 (fun _ => .rateLimited) ⟨[], []⟩ "ep" 0).1 (fun _ => rfl)

/-! ## BatchProcessor (the coalescing batcher)

The `BatchProcessor` class is the spec's Coalescing Batcher.  Its `add`
first drains the queue if it is full, then enqueues a waiter, arms the
batch timer when idle, and — unconditionally, with no per-key lookup —
invokes the caller's `fetchFn` immediately (`void fetchFn().then(resolve)`).
The timer/full-queue drain (`process`) additionally invokes
`processSingleItem(key)` once per queued waiter; each such call performs
its own fresh upstream fetch in both subclasses
(`UserDataBatchProcessor`, `ReactionsBatchProcessor`).  The model logs
every `fetchFn` invocation (`fetchLog`, by key) and every
`processSingleItem` invocation (`batchLog`, by key). -/

/-- Constant `BATCH_CONFIG.MAX_BATCH_SIZE`. -/
def MAX_BATCH_SIZE : Nat := 50

/-- Sequential state of a `BatchProcessor`, plus the two invocation logs
used to observe producer calls. -/
structure BatcherState where
  queue : List String
  processing : Bool
  timerSet : Bool
  fetchLog : List String
  batchLog : List String
deriving DecidableEq

namespace BatchProcessor

/-- Model of `BatchProcessor.process()`: a no-op while already processing
or with an empty queue; otherwise clear the timer, take the whole queue
and run `processSingleItem` for each queued waiter (logged in `batchLog`),
with `processing` restored to `false` in the `finally`. -/
def process (s : BatcherState) : BatcherState :=
  if s.processing ∨ s.queue.isEmpty then s
  else
    { queue := [], processing := false, timerSet := false,
      fetchLog := s.fetchLog, batchLog := s.batchLog ++ s.queue }

/-- Model of `BatchProcessor.add(key, fetchFn)`: drain first when the
queue is full, push the waiter, arm the timer when idle, and invoke the
caller's `fetchFn` immediately and unconditionally (logged in `fetchLog`).
No branch consults whether `key` is already queued or in flight. -/
def add (s : BatcherState) (key : String) : BatcherState :=
  let s1 := if s.queue.length ≥ MAX_BATCH_SIZE then process s else s
  { queue := s1.queue ++ [key],
    processing := s1.processing,
    timerSet := s1.timerSet ∨ ¬ s1.processing,
    fetchLog := s1.fetchLog ++ [key],
    batchLog := s1.batchLog }

/-- The `BATCH_TIMEOUT` timer callback is `() => void this.process()`. -/
def fireTimer (s : BatcherState) : BatcherState := process s

/-- Run a sequence of `add` calls (keys only; every call's `fetchFn` is
its key's producer). -/
def runAdds (s : BatcherState) : List String → BatcherState
  | [] => s
  | k :: ks => runAdds (add s k) ks

theorem process_fetchLog (s : BatcherState) : (process s).fetchLog = s.fetchLog := by
  unfold process
  split <;> rfl

theorem add_fetchLog (s : BatcherState) (k : String) :
    (add s k).fetchLog = s.fetchLog ++ [k] := by
  unfold add
  split <;> simp [process_fetchLog]

theorem runAdds_fetchLog (calls : List String) (s : BatcherState) :
    (runAdds s calls).fetchLog = s.fetchLog ++ calls := by
  induction calls generalizing s with
  | nil => simp [runAdds]
  | cons k ks ih =>
    rw [runAdds, ih, add_fetchLog]
    simp

theorem runAdds_small (calls : List String) (s : BatcherState)
    (hlen : s.queue.length + calls.length ≤ MAX_BATCH_SIZE) :
    (runAdds s calls).queue = s.queue ++ calls
    ∧ (runAdds s calls).batchLog = s.batchLog
    ∧ (runAdds s calls).processing = s.processing := by
  induction calls generalizing s with
  | nil => simp [runAdds]
  | cons k ks ih =>
    rw [runAdds]
    have hfull : ¬ s.queue.length ≥ MAX_BATCH_SIZE := by
      simp only [List.length_cons] at hlen
      omega
    have hadd : add s k
        = { queue := s.queue ++ [k], processing := s.processing,
            timerSet := s.timerSet ∨ ¬ s.processing,
            fetchLog := s.fetchLog ++ [k], batchLog := s.batchLog } := by
      unfold add
      rw [if_neg hfull]
    rw [hadd]
    have := ih { queue := s.queue ++ [k], processing := s.processing,
                 timerSet := s.timerSet ∨ ¬ s.processing,
                 fetchLog := s.fetchLog ++ [k], batchLog := s.batchLog }
      (by simp only [List.length_append, List.length_cons, List.length_nil] at hlen ⊢; omega)
    simpa using this

end BatchProcessor

/-! ## Claim C1 -/

/-- The idle batcher, as freshly constructed. -/
def initBatcher : BatcherState := ⟨[], false, false, [], []⟩

/-- Counterexample to claim C1 as stated: two `add` calls with the same
key `"k"` — the second arriving while the first is still in flight (its
batch not yet drained, its promise unsettled) — invoke the caller-supplied
producer twice, not at most once: `add` runs `void fetchFn()` on every
call without any per-key deduplication. -/
theorem claim_C1_counterexample :
    ¬ ((BatchProcessor.runAdds initBatcher ["k", "k"]).fetchLog.count "k" ≤ 1)
    ∧ (BatchProcessor.runAdds initBatcher ["k", "k"]).fetchLog.count "k" = 2 := by
  decide

/-- Claim C1 (corrected).  `BatchProcessor.add(key, producer)` performs no
per-key coalescing at all: every `add` call invokes its own producer
immediately, so a sequence of calls invokes the producer for key `k`
exactly as many times as `k` was submitted (in particular, twice for two
overlapping calls with the same key, and each caller's promise is settled
by one of its own invocations rather than by a shared in-flight one).
Moreover, when the batch timer fires, the drain runs `processSingleItem`
once per queued waiter — one further independent upstream fetch per call
on top of the producer invocations. -/
theorem claim_C1 (calls : List String) (k : String) :
    (BatchProcessor.runAdds initBatcher calls).fetchLog.count k = calls.count k
    ∧ (calls.length ≤ MAX_BATCH_SIZE →
        (BatchProcessor.fireTimer (BatchProcessor.runAdds initBatcher calls)).batchLog
          = calls) := by
  constructor
  · rw [BatchProcessor.runAdds_fetchLog]
    simp [initBatcher]
  · intro hlen
    obtain ⟨hq, hb, hp⟩ := BatchProcessor.runAdds_small calls initBatcher
      (by simpa [initBatcher] using hlen)
    unfold BatchProcessor.fireTimer BatchProcessor.process
    split
    · next hcond =>
      rcases hcond with hproc | hempty
      · rw [hp] at hproc
        simp [initBatcher] at hproc
      · rw [hq] at hempty
        simp [initBatcher] at hempty
        rw [hb, hempty]
        rfl
    · rw [hb, hq]
      simp [initBatcher]

/-- Witness for C1: two same-key calls then the timer: the producer ran
twice and the drain refetched once per waiter. -/
theorem claim_C1_witness :
    (BatchProcessor.runAdds initBatcher ["k", "k"]).fetchLog.count "k" = 2
    ∧ (BatchProcessor.fireTimer (BatchProcessor.runAdds initBatcher ["k", "k"])).batchLog
        = ["k", "k"] :=
  ⟨by simpa using (claim_C1 ["k", "k"] "k").1,
   (claim_C1 ["k", "k"] "k").2 (by decide)⟩

/-! ## Cast records and batch-mode pagination -/

/-- Upstream `parentCastId`: the parent author's fid plus the parent cast
hash. -/
structure CastId where
  fid : Nat
  hash : String
deriving DecidableEq

/-- Upstream attachment/embed record: `{type, url}`. -/
structure TypedUrl where
  type : String
  url : String
deriving DecidableEq

/-- Upstream `castAddBody` of a cast message. -/
structure CastAddBody where
  text : String
  parentCastId : Option CastId
  attachments : List TypedUrl
  embeds : List TypedUrl
  embedsDeprecated : List TypedUrl
deriving DecidableEq

/-- The `data` of an upstream message, as read by the cast loops:
`timestamp` is `some` exactly when `typeof timestamp === "number"`. -/
structure MessageData where
  timestamp : Option Nat
  castAddBody : Option CastAddBody
deriving DecidableEq

/-- An upstream `SnapchainMessage`: top-level `hash` (used by the
streaming handler) plus `data`. -/
structure SnapMessage where
  hash : String
  data : MessageData
deriving DecidableEq

/-- The author stamped on every translated cast (`user.fid`,
`user.username`). -/
structure CastAuthor where
  fid : Nat
  username : String
deriving DecidableEq

/-- The translated `FarcasterCast`.  `timestampMs` carries the epoch
milliseconds that the source renders with `toISOString()` (an injective
formatting, so equalities are preserved); `likes`/`recasts` flatten the
`reactions` record. -/
structure FarcasterCast where
  hash : String
  threadHash : String
  parentHash : Option String
  author : CastAuthor
  text : String
  timestampMs : Nat
  attachments : List TypedUrl
  embeds : List TypedUrl
  likes : Nat
  recasts : Nat
deriving DecidableEq

/-- Constant `FARCASTER_EPOCH`: `Date("2021-01-01T00:00:00.000Z")` in ms. -/
def FARCASTER_EPOCH : Nat := 1609459200000

/-- JavaScript falsiness of an optional string (`!x`): absent or empty. -/
def jsFalsyStr : Option String → Bool
  | none => true
  | some s => s = ""

/-- Model of the cast translation in `fetchUserData` of
`src/server/src/index.ts` (lines 297-316): display hash from
`text.slice(0, 8)`, thread/parent hashes from `parentCastId`, embeds as
`[...embeds, ...embedsDeprecated]`, zero reaction tally. -/
def toCast (author : CastAuthor) (m : SnapMessage) (body : CastAddBody) : FarcasterCast :=
  { hash := body.text.take 8
    threadHash := (body.parentCastId.map CastId.hash).getD ""
    parentHash := body.parentCastId.map CastId.hash
    author := author
    text := body.text
    timestampMs := match m.data.timestamp with
      | some ts => FARCASTER_EPOCH + ts * 1000
      | none => 0
    attachments := body.attachments
    embeds := body.embeds ++ body.embedsDeprecated
    likes := 0
    recasts := 0 }

/-- The query parameters consumed by the pagination loop (`sortOrder`
only selects the upstream `reverse` flag, so it is part of the page
stream, not of the loop). -/
structure FetchParams where
  all : Bool
  limit : Option Nat
  includeReplies : Bool
deriving DecidableEq

/-- Source: `params.all === true ? 1000 : params.limit || 10` (JS `||`
maps a zero limit to 10). -/
def targetLimit (p : FetchParams) : Nat :=
  if p.all then 1000 else
    match p.limit with
    | some l => if l = 0 then 10 else l
    | none => 10

/-- JavaScript truthiness of `params.limit` in `if (params.limit)`. -/
def jsLimitTruthy (p : FetchParams) : Bool :=
  match p.limit with
  | some l => l ≠ 0
  | none => false

/-- One page of the cast loop: messages without `castAddBody` are
skipped, the rest are translated and pushed onto `allCasts`. -/
def pageCasts (author : CastAuthor) (msgs : List SnapMessage) : List FarcasterCast :=
  msgs.filterMap (fun m => m.data.castAddBody.map (toCast author m))

/-- The casts of one page that are also pushed onto `nonReplyCasts`:
those with `!cast.parentHash` (absent or empty parent hash). -/
def pageNonReply (author : CastAuthor) (msgs : List SnapMessage) : List FarcasterCast :=
  (pageCasts author msgs).filter (fun c => jsFalsyStr c.parentHash)

/-- Model of the `do/while(pageToken)` pagination loop of
`fetchUserData`: each upstream response page is consumed whole; after a
page, when not in `all` mode, the loop breaks once the relevant
accumulator has reached `targetLimit`; it also ends when `nextPageToken`
is absent (modelled by the page list running out). -/
def castsLoop (author : CastAuthor) (p : FetchParams) :
    List (List SnapMessage) → List FarcasterCast → List FarcasterCast →
    List FarcasterCast × List FarcasterCast
  | [], allCasts, nonReply => (allCasts, nonReply)
  | page :: rest, allCasts, nonReply =>
    let allCasts2 := allCasts ++ pageCasts author page
    let nonReply2 := if p.includeReplies then nonReply else nonReply ++ pageNonReply author page
    if p.all = false
        ∧ ((p.includeReplies = true ∧ targetLimit p ≤ allCasts2.length)
           ∨ (p.includeReplies = false ∧ targetLimit p ≤ nonReply2.length)) then
      (allCasts2, nonReply2)
    else if rest = [] then (allCasts2, nonReply2)
    else castsLoop author p rest allCasts2 nonReply2

/-- Model of the cast-producing tail of `fetchUserData`
(`src/server/src/index.ts` lines 329-351): run the pagination loop, pick
`allCasts` or `nonReplyCasts`, and as the final step slice to
`Math.max(1, Math.min(params.limit, 1000))` when a limit was given and
`all` is not set. -/
def fetchUserDataCasts (author : CastAuthor) (p : FetchParams)
    (pages : List (List SnapMessage)) : List FarcasterCast :=
  let r := castsLoop author p pages [] []
  let finalCasts := if p.includeReplies then r.1 else r.2
  if p.all = false ∧ jsLimitTruthy p then
    finalCasts.take (max 1 (min (p.limit.getD 0) 1000))
  else finalCasts

/-- Specification-side view of one message as the loop treats it in
non-reply mode: translated when it has a `castAddBody` and a falsy parent
hash, skipped otherwise. -/
def topLevelCast (author : CastAuthor) (m : SnapMessage) : Option FarcasterCast :=
  match m.data.castAddBody with
  | some body =>
    let c := toCast author m body
    if jsFalsyStr c.parentHash then some c else none
  | none => none

theorem pageNonReply_eq_filterMap (author : CastAuthor) (msgs : List SnapMessage) :
    pageNonReply author msgs = msgs.filterMap (topLevelCast author) := by
  rw [pageNonReply, pageCasts, List.filter_filterMap]
  apply List.filterMap_congr
  intro m hm
  cases hb : m.data.castAddBody with
  | none => simp [hb, topLevelCast]
  | some body =>
    simp only [hb, Option.map_some, topLevelCast, Option.filter]
    by_cases hp : jsFalsyStr (toCast author m body).parentHash = true
    · simp [hp]
    · simp [hp]

theorem castsLoop_cons_noReplies (author : CastAuthor) (p : FetchParams)
    (hall : p.all = false) (hrep : p.includeReplies = false)
    (page : List SnapMessage) (rest : List (List SnapMessage))
    (acc1 acc2 : List FarcasterCast) :
    castsLoop author p (page :: rest) acc1 acc2 =
      if targetLimit p ≤ (acc2 ++ pageNonReply author page).length then
        (acc1 ++ pageCasts author page, acc2 ++ pageNonReply author page)
      else if rest = [] then
        (acc1 ++ pageCasts author page, acc2 ++ pageNonReply author page)
      else
        castsLoop author p rest (acc1 ++ pageCasts author page)
          (acc2 ++ pageNonReply author page) := by
  rw [castsLoop]
  simp [hall, hrep]

theorem castsLoop_nonReply (author : CastAuthor) (p : FetchParams)
    (hall : p.all = false) (hrep : p.includeReplies = false) :
    ∀ (pages : List (List SnapMessage)) (acc1 acc2 : List FarcasterCast),
      ∃ n, n ≤ pages.length
        ∧ (castsLoop author p pages acc1 acc2).2
            = acc2 ++ (pages.take n).flatten.filterMap (topLevelCast author)
        ∧ (n = pages.length
           ∨ targetLimit p ≤ ((castsLoop author p pages acc1 acc2).2).length) := by
  intro pages
  induction pages with
  | nil =>
    intro acc1 acc2
    exact ⟨0, by simp [castsLoop]⟩
  | cons page rest ih =>
    intro acc1 acc2
    rw [castsLoop_cons_noReplies author p hall hrep]
    by_cases hbrk : targetLimit p ≤ (acc2 ++ pageNonReply author page).length
    · rw [if_pos hbrk]
      refine ⟨1, by simp, ?_, Or.inr ?_⟩
      · simp [pageNonReply_eq_filterMap]
      · exact hbrk
    · rw [if_neg hbrk]
      by_cases hrest : rest = []
      · subst hrest
        rw [if_pos rfl]
        refine ⟨1, by simp, ?_, Or.inl (by simp)⟩
        simp [pageNonReply_eq_filterMap]
      · rw [if_neg hrest]
        obtain ⟨n, hn, heq, hdisj⟩ :=
          ih (acc1 ++ pageCasts author page) (acc2 ++ pageNonReply author page)
        refine ⟨n + 1, by simpa using hn, ?_, ?_⟩
        · rw [heq, pageNonReply_eq_filterMap]
          simp [List.take_cons, List.filterMap_append]
        · rcases hdisj with h | h
          · exact Or.inl (by simp [h])
          · exact Or.inr h

/-- The final slice of `fetchUserDataCasts` in non-reply limited mode. -/
theorem fetchUserDataCasts_noReplies (author : CastAuthor) (L : Nat) (hL : L ≠ 0)
    (pages : List (List SnapMessage)) :
    fetchUserDataCasts author ⟨false, some L, false⟩ pages
      = (castsLoop author ⟨false, some L, false⟩ pages [] []).2.take
          (max 1 (min L 1000)) := by
  unfold fetchUserDataCasts
  simp only [show (⟨false, some L, false⟩ : FetchParams).includeReplies = false from rfl,
    Bool.false_eq_true, if_false]
  split
  · rfl
  · next hcond =>
    exfalso
    refine hcond ⟨?_, ?_⟩
    · simp
    · simp [jsLimitTruthy]
      omega

/-- A one-page upstream response: the loop runs exactly once and ends
(either by the limit break or because there is no `nextPageToken`). -/
theorem castsLoop_single (author : CastAuthor) (p : FetchParams)
    (hall : p.all = false) (hrep : p.includeReplies = false)
    (page : List SnapMessage) (acc1 acc2 : List FarcasterCast) :
    castsLoop author p [page] acc1 acc2
      = (acc1 ++ pageCasts author page, acc2 ++ pageNonReply author page) := by
  rw [castsLoop_cons_noReplies author p hall hrep]
  split
  · rfl
  · rw [if_pos rfl]

theorem filterMap_replicate_some {α β : Type} {f : α → Option β} {a : α} {b : β}
    (h : f a = some b) (n : Nat) :
    (List.replicate n a).filterMap f = List.replicate n b := by
  induction n with
  | zero => rfl
  | succ n ih =>
    rw [List.replicate_succ, List.filterMap_cons, h, List.replicate_succ, ih]

/-! ## Claim C6 -/

/-- A top-level upstream cast message (no `parentCastId`). -/
def topMsg : SnapMessage := ⟨"", ⟨some 1, some ⟨"hello", none, [], [], []⟩⟩⟩

/-- Counterexample to claim C6 as stated: with `limit = 1001` and 1001
top-level posts available upstream, the returned list has 1000 posts, not
`min 1001 1001 = 1001`: the final slice clamps the limit with
`Math.min(params.limit, 1000)`. -/
theorem claim_C6_counterexample :
    (fetchUserDataCasts ⟨1, "alice"⟩ ⟨false, some 1001, false⟩
        [List.replicate 1001 topMsg]).length = 1000
    ∧ (([List.replicate 1001 topMsg] : List (List SnapMessage)).flatten.filterMap
        (topLevelCast ⟨1, "alice"⟩)).length = 1001
    ∧ (1000 : Nat) ≠ min 1001 1001 := by
  have htop : topLevelCast ⟨1, "alice"⟩ topMsg
      = some (toCast ⟨1, "alice"⟩ topMsg ⟨"hello", none, [], [], []⟩) := rfl
  have hpage : pageNonReply ⟨1, "alice"⟩ (List.replicate 1001 topMsg)
      = List.replicate 1001 (toCast ⟨1, "alice"⟩ topMsg ⟨"hello", none, [], [], []⟩) := by
    rw [pageNonReply_eq_filterMap, filterMap_replicate_some htop]
  refine ⟨?_, ?_, by omega⟩
  · rw [fetchUserDataCasts_noReplies ⟨1, "alice"⟩ 1001 (by omega),
      castsLoop_single _ _ rfl rfl]
    dsimp only
    rw [hpage, List.nil_append, List.take_replicate, List.length_replicate]
    omega
  · rw [show ([List.replicate 1001 topMsg] : List (List SnapMessage)).flatten
        = List.replicate 1001 topMsg from by
      rw [List.flatten_cons, List.flatten_nil, List.append_nil]]
    rw [filterMap_replicate_some htop, List.length_replicate]

/-- Claim C6 (corrected).  For every request with `all = false`,
`includeReplies = false` and a positive limit `L`, the returned list is
exactly the first `min L 1000` casts of the translated top-level stream in
upstream (requested-order) page order: truncation is applied only as the
final step to the whole accumulated stream, every returned cast has a
falsy (absent or empty) parent hash, and the length is exactly
`min (min L 1000) a` where `a` is the number of available top-level posts
— the claim's `min L a` only after clamping `L` at the source's cap of
1000 (and with a parent reference carrying an empty hash counting as
top-level). -/
theorem claim_C6 (author : CastAuthor) (pages : List (List SnapMessage))
    (L : Nat) (hL : 1 ≤ L) :
    fetchUserDataCasts author ⟨false, some L, false⟩ pages
      = (pages.flatten.filterMap (topLevelCast author)).take (min L 1000)
    ∧ (fetchUserDataCasts author ⟨false, some L, false⟩ pages).length
      = min (min L 1000) (pages.flatten.filterMap (topLevelCast author)).length
    ∧ (∀ c ∈ fetchUserDataCasts author ⟨false, some L, false⟩ pages,
        jsFalsyStr c.parentHash = true) := by
  obtain ⟨n, hn, heq, hdisj⟩ :=
    castsLoop_nonReply author ⟨false, some L, false⟩ rfl rfl pages [] []
  have hsplit : pages.flatten.filterMap (topLevelCast author)
      = (pages.take n).flatten.filterMap (topLevelCast author)
        ++ (pages.drop n).flatten.filterMap (topLevelCast author) := by
    conv_lhs => rw [← List.take_append_drop n pages]
    rw [List.flatten_append, List.filterMap_append]
  have hLT : targetLimit ⟨false, some L, false⟩ = L := by
    simp only [targetLimit]
    simp only [if_neg (by simp : ¬ (false = true))]
    rw [if_neg (by omega : ¬ L = 0)]
  have hmain : fetchUserDataCasts author ⟨false, some L, false⟩ pages
      = (pages.flatten.filterMap (topLevelCast author)).take (min L 1000) := by
    rw [fetchUserDataCasts_noReplies author L (by omega)]
    rw [show max 1 (min L 1000) = min L 1000 by omega]
    rw [heq]
    simp only [List.nil_append]
    rcases hdisj with h | h
    · rw [h, List.take_length]
    · rw [heq] at h
      simp only [List.nil_append] at h
      rw [hLT] at h
      rw [hsplit, List.take_append_of_le_length (by omega)]
  refine ⟨hmain, ?_, ?_⟩
  · rw [hmain, List.length_take]
  · intro c hc
    rw [hmain] at hc
    have hc2 : c ∈ pages.flatten.filterMap (topLevelCast author) :=
      List.mem_of_mem_take hc
    obtain ⟨m, hm, hsome⟩ := List.mem_filterMap.mp hc2
    cases hb : m.data.castAddBody with
    | none => simp [topLevelCast, hb] at hsome
    | some body =>
      simp only [topLevelCast, hb] at hsome
      split at hsome
      · next hp =>
        rw [← Option.some.inj hsome]
        exact hp
      · exact absurd hsome (by simp)

/-- Witness for C6: one page holding one top-level cast with limit 5
yields exactly the translated stream truncated to `min 5 1000`. -/
theorem claim_C6_witness :
    fetchUserDataCasts ⟨1, "alice"⟩ ⟨false, some 5, false⟩ [[topMsg]]
      = (([[topMsg]] : List (List SnapMessage)).flatten.filterMap
          (topLevelCast ⟨1, "alice"⟩)).take (min 5 1000) :=
  (claim_C6 ⟨1, "alice"⟩ [[topMsg]] 5 (by omega)).1

/-! ## Claim C9 -/

/-- A `castAddBody` whose current and legacy embed lists carry the same
URL. -/
def dupEmbedBody : CastAddBody :=
  ⟨"hi", none, [], [⟨"url", "https://example.com/e"⟩], [⟨"url", "https://example.com/e"⟩]⟩

/-- The upstream message carrying `dupEmbedBody`. -/
def dupEmbedMsg : SnapMessage := ⟨"", ⟨some 2, some dupEmbedBody⟩⟩

/-- Counterexample to claim C9 as stated: a URL present in both the
current (`embeds`) and legacy (`embedsDeprecated`) representations occurs
twice in the translated post's embeds, not once — the source concatenates
the two lists without deduplication. -/
theorem claim_C9_counterexample :
    ((toCast ⟨1, "a"⟩ dupEmbedMsg dupEmbedBody).embeds.map TypedUrl.url).count
        "https://example.com/e" = 2
    ∧ ¬ (((toCast ⟨1, "a"⟩ dupEmbedMsg dupEmbedBody).embeds.map TypedUrl.url).count
        "https://example.com/e" = 1) := by
  constructor
  · decide
  · decide

/-- Claim C9 (corrected).  For every translated post, the embeds list is
the concatenation of the current embeds followed by the legacy
(`embedsDeprecated`) embeds, with no deduplication: each URL occurs
exactly as many times as in the two upstream representations combined, so
a URL present in both occurs twice, not once. -/
theorem claim_C9 (author : CastAuthor) (m : SnapMessage) (body : CastAddBody) :
    (toCast author m body).embeds = body.embeds ++ body.embedsDeprecated
    ∧ ∀ u : String,
        ((toCast author m body).embeds.map TypedUrl.url).count u
          = (body.embeds.map TypedUrl.url).count u
            + (body.embedsDeprecated.map TypedUrl.url).count u := by
  refine ⟨rfl, fun u => ?_⟩
  show ((body.embeds ++ body.embedsDeprecated).map TypedUrl.url).count u = _
  rw [List.map_append, List.count_append]

/-! ## Streaming route model -/

/-- Observable events of the streaming GET handler: each check records the
value of signal.aborted it observed, the call events are upstream dispatches
(the profile request, one castsByFid page request, one reactionsByCast
request), and the emit events are output fragments written to the stream. -/
inductive StreamEvent where
  | check (aborted : Bool)
  | callUserData
  | callPage
  | callReaction (which : Nat)
  | emitProfile
  | emitPost (hash : String)
  | emitReactions (likes recasts : Nat)
  | emitNoPosts
deriving DecidableEq

/-- How the per-page message loop ends: an abort return, the limit break, or
exhaustion of the page. -/
inductive LoopExit where
  | returned
  | broke
  | finished
deriving DecidableEq

/-- Upstream environment of one streaming request: the reaction tallies per
cast hash, and the hashes whose reactions are already cached (a fresh cache
hit makes fetchCastReactions return without dispatching requests). -/
structure StreamUpstream where
  reactions : String → Nat × Nat
  warmCache : List String

/-- JavaScript truthiness of the optional numeric limit (absent and 0 are
falsy). -/
def jsNumTruthy : Option Nat → Bool
  | none => false
  | some n => n ≠ 0

/-- Numeric value of the optional limit (absent reads as 0). -/
def jsNumVal : Option Nat → Nat
  | none => 0
  | some n => n

/-- State of the reaction machinery threaded through the cast loop: the
hashes with fresh cached reactions, and the waiter queue of the reactions
batch processor (one waiter pushed per reactionsBatchProcessor.add). -/
abbrev ReactState := List String × List String

/-- Events of the fetch-reactions step for one cast: on a fresh cache hit
only the tallies are written; otherwise fetchCastReactions goes through
reactionsBatchProcessor.add, which pushes a waiter into the batch queue
and runs the immediate fetch — the Like and Recast reactionsByCast
requests dispatched together (one Promise.all behind the single preceding
abort check) — and the result is written and cached. -/
def reactSeg (up : StreamUpstream) (st : ReactState) (h : String) :
    List StreamEvent × ReactState :=
  if h ∈ st.1 then
    ([.emitReactions (up.reactions h).1 (up.reactions h).2], st)
  else
    ([.callReaction 0, .callReaction 1,
      .emitReactions (up.reactions h).1 (up.reactions h).2],
     (h :: st.1, st.2 ++ [h]))

/-- The per-cast loop of the streaming handler over one upstream page.  The
parameter a is the global step at which the client aborts: a check at step i
observes aborted exactly when a is at most i.  Steps advance across the
awaits of the source; cc counts casts against the limit and pc counts
processed casts.  Returns the events, the two counters, the reaction
cache-and-batch-queue state and how the loop ended. -/
def streamMsgs (a : Nat) (up : StreamUpstream) (limit : Option Nat) (includeReplies : Bool) :
    List SnapMessage → Nat → Nat → Nat → ReactState →
    List StreamEvent × Nat × Nat × ReactState × LoopExit
  | [], _, cc, pc, cache => ([], cc, pc, cache, .finished)
  | m :: ms, i, cc, pc, cache =>
    if a ≤ i then ([.check true], cc, pc, cache, .returned)
    else
      match m.data.castAddBody with
      | none =>
        let r := streamMsgs a up limit includeReplies ms (i + 1) cc pc cache
        (.check false :: r.1, r.2)
      | some body =>
        if includeReplies = false ∧ body.parentCastId.isSome then
          let r := streamMsgs a up limit includeReplies ms (i + 1) cc pc cache
          (.check false :: r.1, r.2)
        else
          if jsNumTruthy limit ∧ jsNumVal limit < cc + 1 then
            ([.check false], cc + 1, pc, cache, .broke)
          else
            if a ≤ i + 2 then
              ([.check false, .emitPost m.hash, .check true, .check true],
               cc + 1, pc + 1, cache, .returned)
            else
              let rs := reactSeg up cache m.hash
              if a ≤ i + 3 + rs.1.length then
                ([.check false, .emitPost m.hash, .check false] ++ rs.1 ++ [.check true],
                 cc + 1, pc + 1, rs.2, .returned)
              else
                let r := streamMsgs a up limit includeReplies ms (i + 4 + rs.1.length)
                  (cc + 1) (pc + 1) rs.2
                ([.check false, .emitPost m.hash, .check false] ++ rs.1
                   ++ [.check false] ++ r.1, r.2)

/-- The pagination loop of the streaming handler: each iteration checks the
signal, dispatches a castsByFid page request, runs the message loop, and
continues unless the limit was reached, the page token ran out, or the
message loop returned on abort.  Returns the events, the processed count,
whether the handler returned early on abort, and the waiter queue left in
the reactions batch processor. -/
def streamPages (a : Nat) (up : StreamUpstream) (limit : Option Nat) (includeReplies : Bool) :
    List (List SnapMessage) → Nat → Nat → Nat → ReactState →
    List StreamEvent × Nat × Bool × List String
  | pages, i, cc, pc, cache =>
    if a ≤ i then ([.check true], pc, true, cache.2)
    else
      match pages with
      | [] => ([.check false, .callPage], pc, false, cache.2)
      | page :: rest =>
        let r := streamMsgs a up limit includeReplies page (i + 2) cc pc cache
        match r.2.2.2.2 with
        | .returned => (.check false :: .callPage :: r.1, r.2.2.1, true, r.2.2.2.1.2)
        | _ =>
          if (jsNumTruthy limit ∧ jsNumVal limit ≤ r.2.1) ∨ rest = [] then
            (.check false :: .callPage :: r.1, r.2.2.1, false, r.2.2.2.1.2)
          else
            let r2 := streamPages a up limit includeReplies rest
              (i + 2 + r.1.length) r.2.1 r.2.2.1 r.2.2.2.1
            (.check false :: .callPage :: r.1 ++ r2.1, r2.2)

/-- A whole streaming response: the initial abort checks, the profile fetch
and header, the pagination loop, and the final no-posts fragment, written
only when nothing was processed and the handler did not return on abort.
Returns the handler's own event trace and the waiter queue left behind in
the reactions batch processor (empty at start of the request's drain
window). -/
def streamRun (a : Nat) (up : StreamUpstream) (limit : Option Nat) (includeReplies : Bool)
    (pages : List (List SnapMessage)) : List StreamEvent × List String :=
  if a ≤ 0 then ([.check true], [])
  else if a ≤ 1 then ([.check false, .check true], [])
  else if a ≤ 3 then ([.check false, .check false, .callUserData, .check true], [])
  else if a ≤ 4 then
    ([.check false, .check false, .callUserData, .check false, .check true], [])
  else
    let r := streamPages a up limit includeReplies pages 6 0 0 (up.warmCache, [])
    ([.check false, .check false, .callUserData, .check false, .check false, .emitProfile]
      ++ r.1 ++ (if r.2.2.1 = false ∧ r.2.1 = 0 then [.emitNoPosts] else []), r.2.2.2)

/-- Query parameters of the streaming route. -/
structure RouteQuery where
  all : Bool
  limit : Option Nat
  includeReplies : Bool
  includeReactions : Bool
  includeParents : Bool
deriving DecidableEq

/-- Parameter normalization of the route handler: all=true forces
includeReactions and includeParents to false and removes the limit. -/
def routeNormalize (q : RouteQuery) : RouteQuery :=
  let q1 := if q.all then { q with includeReactions := false, includeParents := false } else q
  if q1.all then { q1 with limit := none } else q1

/-- The streaming GET handler's own event trace: streamRun on the
normalized parameters. -/
def handleStream (a : Nat) (up : StreamUpstream) (q : RouteQuery)
    (pages : List (List SnapMessage)) : List StreamEvent :=
  (streamRun a up (routeNormalize q).limit (routeNormalize q).includeReplies pages).1

/-- Waiter queue of the reactions batch processor when the handler ends:
one waiter per reaction enrichment the handler dispatched, because every
fetchCastReactions cache miss runs reactionsBatchProcessor.add, which
pushes the waiter besides firing the immediate fetch. -/
def streamWaiters (a : Nat) (up : StreamUpstream) (q : RouteQuery)
    (pages : List (List SnapMessage)) : List String :=
  (streamRun a up (routeNormalize q).limit (routeNormalize q).includeReplies pages).2

/-- Upstream dispatches of the batch drain: BatchProcessor.process takes
the whole queue and runs processSingleItem once per queued waiter, and
ReactionsBatchProcessor.processSingleItem issues the Like and Recast
reactionsByCast requests; no abort check occurs anywhere on this path. -/
def drainEvents : List String → List StreamEvent
  | [] => []
  | _ :: ws => .callReaction 0 :: .callReaction 1 :: drainEvents ws

/-- Full upstream/output trace of one streaming request, under the real
scheduling in which the BATCH_TIMEOUT timer of the reactions batch
processor fires after the handler has ended: the handler's own events
followed by the drain's dispatches for the waiters it left queued. -/
def handleStreamFull (a : Nat) (up : StreamUpstream) (q : RouteQuery)
    (pages : List (List SnapMessage)) : List StreamEvent :=
  handleStream a up q pages ++ drainEvents (streamWaiters a up q pages)

/-- Concrete upstream for C7 and C8: cast h1 has 3 likes and 1 recast, and
nothing is cached. -/
def upC7 : StreamUpstream := ⟨fun h => if h = "h1" then (3, 1) else (0, 0), []⟩

/-- A single top-level upstream cast with hash h1. -/
def castMsgC7 : SnapMessage := ⟨"h1", ⟨some 5, some ⟨"hey", none, [], [], []⟩⟩⟩

/-- An all=true request that explicitly asks for reactions and parents. -/
def qC7 : RouteQuery := ⟨true, some 10, true, true, true⟩

/-! ## Trace predicates -/

def isCheckB : StreamEvent → Bool
  | .check _ => true
  | _ => false

def isCallPageB : StreamEvent → Bool
  | .callPage => true
  | _ => false

def isEmitPostB : StreamEvent → Bool
  | .emitPost _ => true
  | _ => false

def isReact0B : StreamEvent → Bool
  | .callReaction 0 => true
  | _ => false

def isReact1B : StreamEvent → Bool
  | .callReaction 1 => true
  | _ => false

def predOkAux (p q : StreamEvent → Bool) : StreamEvent → List StreamEvent → Bool
  | _, [] => true
  | prev, e :: rest => (if p e then q prev else true) && predOkAux p q e rest

def predOkB (p q : StreamEvent → Bool) : List StreamEvent → Bool
  | [] => true
  | e :: rest => !(p e) && predOkAux p q e rest

def afterAbortOnlyChecks : List StreamEvent → Bool
  | [] => true
  | .check true :: rest => rest.all isCheckB
  | _ :: rest => afterAbortOnlyChecks rest

theorem predOkAux_append {p q : StreamEvent → Bool} {prev : StreamEvent}
    {l₁ l₂ : List StreamEvent}
    (h1 : predOkAux p q prev l₁ = true) (h2 : predOkB p q l₂ = true) :
    predOkAux p q prev (l₁ ++ l₂) = true := by
  induction l₁ generalizing prev with
  | nil =>
    cases l₂ with
    | nil => rfl
    | cons e r =>
      simp only [predOkB, Bool.and_eq_true, Bool.not_eq_true'] at h2
      simp only [List.nil_append, predOkAux, h2.1, if_false, Bool.true_and]
      exact h2.2
  | cons x t ih =>
    simp only [List.cons_append, predOkAux, Bool.and_eq_true] at h1 ⊢
    exact ⟨h1.1, ih h1.2⟩

theorem predOkB_append {p q : StreamEvent → Bool} {l₁ l₂ : List StreamEvent}
    (h1 : predOkB p q l₁ = true) (h2 : predOkB p q l₂ = true) :
    predOkB p q (l₁ ++ l₂) = true := by
  cases l₁ with
  | nil => simpa using h2
  | cons e t =>
    simp only [List.cons_append, predOkB, Bool.and_eq_true] at h1 ⊢
    exact ⟨h1.1, predOkAux_append h1.2 h2⟩

theorem predOkAux_of_predOkB {p q : StreamEvent → Bool} {l : List StreamEvent}
    (h : predOkB p q l = true) (prev : StreamEvent) :
    predOkAux p q prev l = true := by
  cases l with
  | nil => rfl
  | cons e r =>
    simp only [predOkB, Bool.and_eq_true, Bool.not_eq_true'] at h
    simp only [predOkAux, h.1, if_false, Bool.true_and]
    exact h.2

theorem predOkB_cons {p q : StreamEvent → Bool} {x : StreamEvent} {l : List StreamEvent}
    (hx : p x = false) (h : predOkB p q l = true) :
    predOkB p q (x :: l) = true := by
  simp only [predOkB, Bool.and_eq_true, Bool.not_eq_true', hx, true_and]
  exact predOkAux_of_predOkB h x

theorem predOkB_of_no_p {p q : StreamEvent → Bool} {l : List StreamEvent}
    (h : ∀ e ∈ l, p e = false) : predOkB p q l = true := by
  cases l with
  | nil => rfl
  | cons e r =>
    simp only [predOkB, Bool.and_eq_true, Bool.not_eq_true']
    refine ⟨h e (List.mem_cons_self _ _), ?_⟩
    have : ∀ prev, ∀ (t : List StreamEvent), (∀ x ∈ t, p x = false) →
        predOkAux p q prev t = true := by
      intro prev t
      induction t generalizing prev with
      | nil => intro _; rfl
      | cons y s ih =>
        intro ht
        simp only [predOkAux, ht y (List.mem_cons_self _ _), if_false, Bool.true_and]
        exact ih y (fun x hx => ht x (List.mem_cons_of_mem _ hx))
    exact this e r (fun x hx => h x (List.mem_cons_of_mem _ hx))

theorem afterAbort_cons {e : StreamEvent} {l : List StreamEvent}
    (he : e ≠ .check true) (h : afterAbortOnlyChecks l = true) :
    afterAbortOnlyChecks (e :: l) = true := by
  cases e with
  | check b =>
    cases b with
    | true => exact absurd rfl he
    | false => exact h
  | callUserData => exact h
  | callPage => exact h
  | callReaction w => exact h
  | emitProfile => exact h
  | emitPost hh => exact h
  | emitReactions x y => exact h
  | emitNoPosts => exact h

theorem afterAbort_of_noAbort {l : List StreamEvent}
    (h : StreamEvent.check true ∉ l) : afterAbortOnlyChecks l = true := by
  induction l with
  | nil => rfl
  | cons e r ih =>
    have he : e ≠ .check true := fun hEq => h (hEq ▸ List.mem_cons_self _ _)
    exact afterAbort_cons he (ih (fun hm => h (List.mem_cons_of_mem _ hm)))

theorem afterAbort_of_allChecks {l : List StreamEvent}
    (h : ∀ e ∈ l, isCheckB e = true) : afterAbortOnlyChecks l = true := by
  induction l with
  | nil => rfl
  | cons e r ih =>
    have hr : afterAbortOnlyChecks r = true :=
      ih (fun x hx => h x (List.mem_cons_of_mem _ hx))
    cases e with
    | check b =>
      cases b with
      | true =>
        show r.all isCheckB = true
        exact List.all_eq_true.mpr (fun x hx => h x (List.mem_cons_of_mem _ hx))
      | false => exact hr
    | callUserData => exact absurd (h _ (List.mem_cons_self _ _)) (by simp [isCheckB])
    | callPage => exact absurd (h _ (List.mem_cons_self _ _)) (by simp [isCheckB])
    | callReaction w => exact absurd (h _ (List.mem_cons_self _ _)) (by simp [isCheckB])
    | emitProfile => exact absurd (h _ (List.mem_cons_self _ _)) (by simp [isCheckB])
    | emitPost hh => exact absurd (h _ (List.mem_cons_self _ _)) (by simp [isCheckB])
    | emitReactions x y => exact absurd (h _ (List.mem_cons_self _ _)) (by simp [isCheckB])
    | emitNoPosts => exact absurd (h _ (List.mem_cons_self _ _)) (by simp [isCheckB])

theorem afterAbort_append {l₁ l₂ : List StreamEvent}
    (h1 : StreamEvent.check true ∉ l₁) (h2 : afterAbortOnlyChecks l₂ = true) :
    afterAbortOnlyChecks (l₁ ++ l₂) = true := by
  induction l₁ with
  | nil => simpa using h2
  | cons e r ih =>
    have he : e ≠ .check true := fun hEq => h1 (hEq ▸ List.mem_cons_self _ _)
    exact afterAbort_cons he (ih (fun hm => h1 (List.mem_cons_of_mem _ hm)))

theorem afterAbort_spec {l : List StreamEvent} (h : afterAbortOnlyChecks l = true) :
    ∀ (i j : Nat) (e : StreamEvent), i < j → l[i]? = some (StreamEvent.check true) →
      l[j]? = some e → isCheckB e = true := by
  induction l with
  | nil => intro i j e _ hi; simp at hi
  | cons x r ih =>
    intro i j e hij hi hj
    cases i with
    | zero =>
      simp only [List.getElem?_cons_zero, Option.some.injEq] at hi
      subst hi
      have hall : r.all isCheckB = true := h
      obtain ⟨j2, rfl⟩ : ∃ j2, j = j2 + 1 := ⟨j - 1, by omega⟩
      simp only [List.getElem?_cons_succ] at hj
      have : e ∈ r := by
        exact List.getElem?_mem hj
      exact List.all_eq_true.mp hall e this
    | succ i2 =>
      obtain ⟨j2, rfl⟩ : ∃ j2, j = j2 + 1 := ⟨j - 1, by omega⟩
      simp only [List.getElem?_cons_succ] at hi hj
      have hr : afterAbortOnlyChecks r = true := by
        cases x with
        | check b =>
          cases b with
          | true =>
            exact afterAbort_of_allChecks (fun y hy => List.all_eq_true.mp h y hy)
          | false => exact h
        | callUserData => exact h
        | callPage => exact h
        | callReaction w => exact h
        | emitProfile => exact h
        | emitPost hh => exact h
        | emitReactions y z => exact h
        | emitNoPosts => exact h
      exact ih hr i2 j2 e (by omega) hi hj

theorem predOkAux_spec {p q : StreamEvent → Bool} {l : List StreamEvent} :
    ∀ {prev : StreamEvent}, predOkAux p q prev l = true →
    ∀ j e, l[j]? = some e → p e = true →
      (j = 0 ∧ q prev = true)
      ∨ (∃ e2, l[j-1]? = some e2 ∧ q e2 = true ∧ 1 ≤ j) := by
  induction l with
  | nil => intro prev _ j e hj; simp at hj
  | cons x r ih =>
    intro prev h j e hj hp
    simp only [predOkAux, Bool.and_eq_true] at h
    cases j with
    | zero =>
      simp only [List.getElem?_cons_zero, Option.some.injEq] at hj
      subst hj
      left
      refine ⟨rfl, ?_⟩
      have := h.1
      rw [if_pos hp] at this
      exact this
    | succ j2 =>
      simp only [List.getElem?_cons_succ] at hj
      rcases ih h.2 j2 e hj hp with ⟨rfl, hq⟩ | ⟨e2, he2, hq, hj2⟩
      · right
        exact ⟨x, by simp, hq, by omega⟩
      · right
        refine ⟨e2, ?_, hq, by omega⟩
        have : j2 + 1 - 1 = (j2 - 1) + 1 := by omega
        rw [this, List.getElem?_cons_succ]
        exact he2

theorem predOkB_spec {p q : StreamEvent → Bool} {l : List StreamEvent}
    (h : predOkB p q l = true) :
    ∀ j e, l[j]? = some e → p e = true →
      ∃ i e2, i + 1 = j ∧ l[i]? = some e2 ∧ q e2 = true := by
  cases l with
  | nil => intro j e hj; simp at hj
  | cons x r =>
    intro j e hj hp
    simp only [predOkB, Bool.and_eq_true, Bool.not_eq_true'] at h
    cases j with
    | zero =>
      simp only [List.getElem?_cons_zero, Option.some.injEq] at hj
      subst hj
      rw [h.1] at hp
      exact absurd hp (by simp)
    | succ j2 =>
      simp only [List.getElem?_cons_succ] at hj
      rcases predOkAux_spec h.2 j2 e hj hp with ⟨rfl, hq⟩ | ⟨e2, he2, hq, hj2⟩
      · exact ⟨0, x, rfl, by simp, hq⟩
      · refine ⟨j2, e2, rfl, ?_, hq⟩
        obtain ⟨j3, rfl⟩ : ∃ j3, j2 = j3 + 1 := ⟨j2 - 1, by omega⟩
        simp only [List.getElem?_cons_succ]
        simpa using he2

/-- The per-iteration safety invariants of the streaming message loop. -/
def MsgsInv (a : Nat) (up : StreamUpstream) (limit : Option Nat) (incRep : Bool)
    (msgs : List SnapMessage) (i cc pc : Nat) (cache : ReactState) : Prop :=
  ((streamMsgs a up limit incRep msgs i cc pc cache).2.2.2.2 ≠ LoopExit.returned →
      StreamEvent.check true ∉ (streamMsgs a up limit incRep msgs i cc pc cache).1)
  ∧ afterAbortOnlyChecks (streamMsgs a up limit incRep msgs i cc pc cache).1 = true
  ∧ (∀ e ∈ (streamMsgs a up limit incRep msgs i cc pc cache).1, isCallPageB e = false)
  ∧ predOkB isEmitPostB isCheckB (streamMsgs a up limit incRep msgs i cc pc cache).1 = true
  ∧ predOkB isReact0B isCheckB (streamMsgs a up limit incRep msgs i cc pc cache).1 = true
  ∧ predOkB isReact1B isReact0B (streamMsgs a up limit incRep msgs i cc pc cache).1 = true

theorem streamMsgs_inv (a : Nat) (up : StreamUpstream) (limit : Option Nat) (incRep : Bool)
    (msgs : List SnapMessage) (i cc pc : Nat) (cache : ReactState) :
    MsgsInv a up limit incRep msgs i cc pc cache := by
  induction msgs, i, cc, pc, cache using streamMsgs.induct a up limit incRep with
  | case1 i cc pc cache =>
    unfold MsgsInv
    have heval : streamMsgs a up limit incRep [] i cc pc cache
        = ([], cc, pc, cache, .finished) := by
      rw [streamMsgs]
    rw [heval]
    exact ⟨fun _ => by simp, rfl, by simp, rfl, rfl, rfl⟩
  | case2 m ms i cc pc cache h =>
    unfold MsgsInv
    have heval : streamMsgs a up limit incRep (m :: ms) i cc pc cache
        = ([.check true], cc, pc, cache, .returned) := by
      rw [streamMsgs]
      rw [if_pos h]
    rw [heval]
    exact ⟨fun hex => absurd rfl hex, rfl, by simp [isCallPageB], rfl, rfl, rfl⟩
  | case3 m ms i cc pc cache h hb ih =>
    have heval : streamMsgs a up limit incRep (m :: ms) i cc pc cache
        = (.check false :: (streamMsgs a up limit incRep ms (i + 1) cc pc cache).1,
           (streamMsgs a up limit incRep ms (i + 1) cc pc cache).2) := by
      rw [streamMsgs]
      rw [if_neg h, hb]
    unfold MsgsInv at ih ⊢
    obtain ⟨ih1, ih2, ih3, ih4, ih5, ih6⟩ := ih
    rw [heval]
    refine ⟨?_, ?_, ?_, ?_, ?_, ?_⟩
    · intro hex hm
      rcases List.mem_cons.mp hm with hEq | hm2
      · simp at hEq
      · exact ih1 hex hm2
    · exact afterAbort_cons (by simp) ih2
    · intro e he
      rcases List.mem_cons.mp he with hEq | he2
      · rw [hEq]; rfl
      · exact ih3 e he2
    · exact predOkB_cons rfl ih4
    · exact predOkB_cons rfl ih5
    · exact predOkB_cons rfl ih6
  | case4 m ms i cc pc cache h body hb hc ih =>
    have heval : streamMsgs a up limit incRep (m :: ms) i cc pc cache
        = (.check false :: (streamMsgs a up limit incRep ms (i + 1) cc pc cache).1,
           (streamMsgs a up limit incRep ms (i + 1) cc pc cache).2) := by
      rw [streamMsgs]
      rw [if_neg h, hb]
      dsimp only
      rw [if_pos hc]
    unfold MsgsInv at ih ⊢
    obtain ⟨ih1, ih2, ih3, ih4, ih5, ih6⟩ := ih
    rw [heval]
    refine ⟨?_, ?_, ?_, ?_, ?_, ?_⟩
    · intro hex hm
      rcases List.mem_cons.mp hm with hEq | hm2
      · simp at hEq
      · exact ih1 hex hm2
    · exact afterAbort_cons (by simp) ih2
    · intro e he
      rcases List.mem_cons.mp he with hEq | he2
      · rw [hEq]; rfl
      · exact ih3 e he2
    · exact predOkB_cons rfl ih4
    · exact predOkB_cons rfl ih5
    · exact predOkB_cons rfl ih6
  | case5 m ms i cc pc cache h body hb hc hlim =>
    unfold MsgsInv
    have heval : streamMsgs a up limit incRep (m :: ms) i cc pc cache
        = ([.check false], cc + 1, pc, cache, .broke) := by
      rw [streamMsgs]
      rw [if_neg h, hb]
      dsimp only
      rw [if_neg hc, if_pos hlim]
    rw [heval]
    exact ⟨fun _ => by simp, rfl, by simp [isCallPageB], rfl, rfl, rfl⟩
  | case6 m ms i cc pc cache h body hb hc hlim h2 =>
    unfold MsgsInv
    have heval : streamMsgs a up limit incRep (m :: ms) i cc pc cache
        = ([.check false, .emitPost m.hash, .check true, .check true],
           cc + 1, pc + 1, cache, .returned) := by
      rw [streamMsgs]
      rw [if_neg h, hb]
      dsimp only
      rw [if_neg hc, if_neg hlim, if_pos h2]
    rw [heval]
    refine ⟨fun hex => absurd rfl hex, rfl, ?_, rfl, rfl, rfl⟩
    intro e he
    rcases List.mem_cons.mp he with hEq | he2
    · rw [hEq]; rfl
    rcases List.mem_cons.mp he2 with hEq | he3
    · rw [hEq]; rfl
    rcases List.mem_cons.mp he3 with hEq | he4
    · rw [hEq]; rfl
    rcases List.mem_cons.mp he4 with hEq | he5
    · rw [hEq]; rfl
    · simp at he5
  | case7 m ms i cc pc cache h body hb hc hlim h2 rs h3 =>
    unfold MsgsInv
    have h3b : a ≤ i + 3 + (reactSeg up cache m.hash).1.length := h3
    have heval : streamMsgs a up limit incRep (m :: ms) i cc pc cache
        = ([.check false, .emitPost m.hash, .check false]
             ++ (reactSeg up cache m.hash).1 ++ [.check true],
           cc + 1, pc + 1, (reactSeg up cache m.hash).2, .returned) := by
      rw [streamMsgs]
      rw [if_neg h, hb]
      dsimp only
      rw [if_neg hc, if_neg hlim, if_neg h2, if_pos h3b]
    rw [heval]
    by_cases hmem : m.hash ∈ cache.1
    · have hrs : (reactSeg up cache m.hash).1
          = [.emitReactions (up.reactions m.hash).1 (up.reactions m.hash).2] := by
        simp [reactSeg, hmem]
      rw [hrs]
      refine ⟨fun hex => absurd rfl hex, ?_, ?_, ?_, ?_, ?_⟩
      · rfl
      · intro e he
        simp only [List.cons_append, List.nil_append] at he
        rcases List.mem_cons.mp he with hEq | he2
        · rw [hEq]; rfl
        rcases List.mem_cons.mp he2 with hEq | he3
        · rw [hEq]; rfl
        rcases List.mem_cons.mp he3 with hEq | he4
        · rw [hEq]; rfl
        rcases List.mem_cons.mp he4 with hEq | he5
        · rw [hEq]; rfl
        rcases List.mem_cons.mp he5 with hEq | he6
        · rw [hEq]; rfl
        · simp at he6
      · rfl
      · rfl
      · rfl
    · have hrs : (reactSeg up cache m.hash).1
          = [.callReaction 0, .callReaction 1,
             .emitReactions (up.reactions m.hash).1 (up.reactions m.hash).2] := by
        simp [reactSeg, hmem]
      rw [hrs]
      refine ⟨fun hex => absurd rfl hex, ?_, ?_, ?_, ?_, ?_⟩
      · rfl
      · intro e he
        simp only [List.cons_append, List.nil_append] at he
        rcases List.mem_cons.mp he with hEq | he2
        · rw [hEq]; rfl
        rcases List.mem_cons.mp he2 with hEq | he3
        · rw [hEq]; rfl
        rcases List.mem_cons.mp he3 with hEq | he4
        · rw [hEq]; rfl
        rcases List.mem_cons.mp he4 with hEq | he5
        · rw [hEq]; rfl
        rcases List.mem_cons.mp he5 with hEq | he6
        · rw [hEq]; rfl
        rcases List.mem_cons.mp he6 with hEq | he7
        · rw [hEq]; rfl
        rcases List.mem_cons.mp he7 with hEq | he8
        · rw [hEq]; rfl
        · simp at he8
      · rfl
      · rfl
      · rfl
  | case8 m ms i cc pc cache h body hb hc hlim h2 rs h3 ih =>
    unfold MsgsInv at ih ⊢
    obtain ⟨ih1, ih2, ih3, ih4, ih5, ih6⟩ := ih
    have h3b : ¬ a ≤ i + 3 + (reactSeg up cache m.hash).1.length := h3
    have heval : streamMsgs a up limit incRep (m :: ms) i cc pc cache
        = (([.check false, .emitPost m.hash, .check false]
             ++ (reactSeg up cache m.hash).1 ++ [.check false])
             ++ (streamMsgs a up limit incRep ms (i + 4 + (reactSeg up cache m.hash).1.length)
                  (cc + 1) (pc + 1) (reactSeg up cache m.hash).2).1,
           (streamMsgs a up limit incRep ms (i + 4 + (reactSeg up cache m.hash).1.length)
                  (cc + 1) (pc + 1) (reactSeg up cache m.hash).2).2) := by
      rw [streamMsgs]
      rw [if_neg h, hb]
      dsimp only
      rw [if_neg hc, if_neg hlim, if_neg h2, if_neg h3b]
    rw [heval]
    have hnoCheckTrue : ∀ hrs1 : List StreamEvent,
        (∀ e ∈ hrs1, isCheckB e = false) →
        StreamEvent.check true ∉
          ([.check false, .emitPost m.hash, .check false] ++ hrs1 ++ [.check false]) := by
      intro hrs1 hall hm
      simp only [List.mem_append, List.mem_cons] at hm
      rcases hm with ((hEq | hEq | hEq | hmm) | hmm) | hEq
      · simp at hEq
      · simp at hEq
      · simp at hEq
      · simp at hmm
      · have := hall _ hmm
        simp [isCheckB] at this
      · rcases hEq with hEq | hF
        · simp at hEq
        · simp at hF
    by_cases hmem : m.hash ∈ cache.1
    · have hrs : (reactSeg up cache m.hash).1
          = [.emitReactions (up.reactions m.hash).1 (up.reactions m.hash).2] := by
        simp [reactSeg, hmem]
      rw [hrs] at ih1 ih2 ih3 ih4 ih5 ih6 ⊢
      have hpre : StreamEvent.check true ∉
          ([StreamEvent.check false, StreamEvent.emitPost m.hash, StreamEvent.check false]
            ++ [StreamEvent.emitReactions (up.reactions m.hash).1 (up.reactions m.hash).2]
            ++ [StreamEvent.check false]) :=
        hnoCheckTrue _ (by intro e he; simp at he; rw [he]; rfl)
      refine ⟨?_, ?_, ?_, ?_, ?_, ?_⟩
      · intro hex hm
        rcases List.mem_append.mp hm with hm1 | hm2
        · exact hpre hm1
        · exact ih1 hex hm2
      · exact afterAbort_append hpre ih2
      · intro e he
        rcases List.mem_append.mp he with hm1 | hm2
        · simp only [List.cons_append, List.nil_append, List.mem_cons] at hm1
          rcases hm1 with hEq | hEq | hEq | hEq | hEq | hF
          · rw [hEq]; rfl
          · rw [hEq]; rfl
          · rw [hEq]; rfl
          · rw [hEq]; rfl
          · rw [hEq]; rfl
          · simp at hF
        · exact ih3 e hm2
      · exact predOkB_append rfl ih4
      · exact predOkB_append rfl ih5
      · exact predOkB_append rfl ih6
    · have hrs : (reactSeg up cache m.hash).1
          = [.callReaction 0, .callReaction 1,
             .emitReactions (up.reactions m.hash).1 (up.reactions m.hash).2] := by
        simp [reactSeg, hmem]
      rw [hrs] at ih1 ih2 ih3 ih4 ih5 ih6 ⊢
      have hpre : StreamEvent.check true ∉
          ([StreamEvent.check false, StreamEvent.emitPost m.hash, StreamEvent.check false]
            ++ [StreamEvent.callReaction 0, StreamEvent.callReaction 1,
                StreamEvent.emitReactions (up.reactions m.hash).1 (up.reactions m.hash).2]
            ++ [StreamEvent.check false]) :=
        hnoCheckTrue _ (by
          intro e he
          simp only [List.mem_cons] at he
          rcases he with hEq | hEq | hEq | hF
          · rw [hEq]; rfl
          · rw [hEq]; rfl
          · rw [hEq]; rfl
          · simp at hF)
      refine ⟨?_, ?_, ?_, ?_, ?_, ?_⟩
      · intro hex hm
        rcases List.mem_append.mp hm with hm1 | hm2
        · exact hpre hm1
        · exact ih1 hex hm2
      · exact afterAbort_append hpre ih2
      · intro e he
        rcases List.mem_append.mp he with hm1 | hm2
        · simp only [List.cons_append, List.nil_append, List.mem_cons] at hm1
          rcases hm1 with hEq | hEq | hEq | hEq | hEq | hEq | hEq | hF
          · rw [hEq]; rfl
          · rw [hEq]; rfl
          · rw [hEq]; rfl
          · rw [hEq]; rfl
          · rw [hEq]; rfl
          · rw [hEq]; rfl
          · rw [hEq]; rfl
          · simp at hF
        · exact ih3 e hm2
      · exact predOkB_append rfl ih4
      · exact predOkB_append rfl ih5
      · exact predOkB_append rfl ih6

/-- The safety invariants of the streaming page loop. -/
def PagesInv (a : Nat) (up : StreamUpstream) (limit : Option Nat) (incRep : Bool)
    (pages : List (List SnapMessage)) (i cc pc : Nat) (cache : ReactState) : Prop :=
  ((streamPages a up limit incRep pages i cc pc cache).2.2.1 = false →
      StreamEvent.check true ∉ (streamPages a up limit incRep pages i cc pc cache).1)
  ∧ afterAbortOnlyChecks (streamPages a up limit incRep pages i cc pc cache).1 = true
  ∧ predOkB isCallPageB isCheckB (streamPages a up limit incRep pages i cc pc cache).1 = true
  ∧ predOkB isEmitPostB isCheckB (streamPages a up limit incRep pages i cc pc cache).1 = true
  ∧ predOkB isReact0B isCheckB (streamPages a up limit incRep pages i cc pc cache).1 = true
  ∧ predOkB isReact1B isReact0B (streamPages a up limit incRep pages i cc pc cache).1 = true

theorem streamPages_inv (a : Nat) (up : StreamUpstream) (limit : Option Nat) (incRep : Bool)
    (pages : List (List SnapMessage)) (i cc pc : Nat) (cache : ReactState) :
    PagesInv a up limit incRep pages i cc pc cache := by
  induction pages, i, cc, pc, cache using streamPages.induct a up limit incRep with
  | case1 pages i cc pc cache h =>
    unfold PagesInv
    have heval : streamPages a up limit incRep pages i cc pc cache
        = ([.check true], pc, true, cache.2) := by
      rw [streamPages.eq_def]
      dsimp only
      rw [if_pos h]
    rw [heval]
    exact ⟨fun hf => by simp at hf, rfl, rfl, rfl, rfl, rfl⟩
  | case2 i cc pc cache h =>
    unfold PagesInv
    have heval : streamPages a up limit incRep [] i cc pc cache
        = ([.check false, .callPage], pc, false, cache.2) := by
      rw [streamPages]
      rw [if_neg h]
    rw [heval]
    refine ⟨?_, rfl, rfl, rfl, rfl, rfl⟩
    intro _ hm
    simp only [List.mem_cons] at hm
    rcases hm with hEq | hEq | hF
    · simp at hEq
    · simp at hEq
    · simp at hF
  | case3 i cc pc cache h page rest r0 hexit =>
    have hminv := streamMsgs_inv a up limit incRep page (i + 2) cc pc cache
    unfold MsgsInv at hminv
    obtain ⟨m1, m2, m3, m4, m5, m6⟩ := hminv
    unfold PagesInv
    have hexit2 : (streamMsgs a up limit incRep page (i + 2) cc pc cache).2.2.2.2
        = LoopExit.returned := hexit
    have heval : streamPages a up limit incRep (page :: rest) i cc pc cache
        = ([.check false, .callPage]
             ++ (streamMsgs a up limit incRep page (i + 2) cc pc cache).1,
           (streamMsgs a up limit incRep page (i + 2) cc pc cache).2.2.1, true,
           (streamMsgs a up limit incRep page (i + 2) cc pc cache).2.2.2.1.2) := by
      rw [streamPages]
      rw [if_neg h]
      dsimp only
      rw [hexit2]
      rfl
    rw [heval]
    refine ⟨fun hf => by simp at hf, ?_, ?_, ?_, ?_, ?_⟩
    · exact afterAbort_append (by intro hm; simp at hm) m2
    · exact predOkB_append rfl (predOkB_of_no_p m3)
    · exact predOkB_append rfl m4
    · exact predOkB_append rfl m5
    · exact predOkB_append rfl m6
  | case4 i cc pc cache h page rest r0 hbrk hexit =>
    have hminv := streamMsgs_inv a up limit incRep page (i + 2) cc pc cache
    unfold MsgsInv at hminv
    obtain ⟨m1, m2, m3, m4, m5, m6⟩ := hminv
    unfold PagesInv
    have hbrk2 : (jsNumTruthy limit = true
          ∧ jsNumVal limit ≤ (streamMsgs a up limit incRep page (i + 2) cc pc cache).2.1)
        ∨ rest = [] := hbrk
    have hexitF : (streamMsgs a up limit incRep page (i + 2) cc pc cache).2.2.2.2
        = LoopExit.returned → False := hexit
    have heval : streamPages a up limit incRep (page :: rest) i cc pc cache
        = ([.check false, .callPage]
             ++ (streamMsgs a up limit incRep page (i + 2) cc pc cache).1,
           (streamMsgs a up limit incRep page (i + 2) cc pc cache).2.2.1, false,
           (streamMsgs a up limit incRep page (i + 2) cc pc cache).2.2.2.1.2) := by
      rw [streamPages]
      rw [if_neg h]
      dsimp only
      cases hexit3 : (streamMsgs a up limit incRep page (i + 2) cc pc cache).2.2.2.2 with
      | returned => exact absurd hexit3 hexitF
      | broke =>
        rw [if_pos hbrk2]
        rfl
      | finished =>
        rw [if_pos hbrk2]
        rfl
    rw [heval]
    have hnoAb : StreamEvent.check true ∉
        (streamMsgs a up limit incRep page (i + 2) cc pc cache).1 := by
      apply m1
      intro hEq
      exact hexitF hEq
    refine ⟨?_, ?_, ?_, ?_, ?_, ?_⟩
    · intro _ hm
      rcases List.mem_append.mp hm with hm1 | hm2
      · simp at hm1
      · exact hnoAb hm2
    · exact afterAbort_append (by intro hm; simp at hm) m2
    · exact predOkB_append rfl (predOkB_of_no_p m3)
    · exact predOkB_append rfl m4
    · exact predOkB_append rfl m5
    · exact predOkB_append rfl m6
  | case5 i cc pc cache h page rest r0 hbrk hexit ih =>
    have hminv := streamMsgs_inv a up limit incRep page (i + 2) cc pc cache
    unfold MsgsInv at hminv
    obtain ⟨m1, m2, m3, m4, m5, m6⟩ := hminv
    unfold PagesInv at ih ⊢
    obtain ⟨p1, p2, p3, p4, p5, p6⟩ := ih
    have hbrkN : ¬ ((jsNumTruthy limit = true
          ∧ jsNumVal limit ≤ (streamMsgs a up limit incRep page (i + 2) cc pc cache).2.1)
        ∨ rest = []) := hbrk
    have hexitF : (streamMsgs a up limit incRep page (i + 2) cc pc cache).2.2.2.2
        = LoopExit.returned → False := hexit
    have heval : streamPages a up limit incRep (page :: rest) i cc pc cache
        = ([.check false, .callPage]
             ++ ((streamMsgs a up limit incRep page (i + 2) cc pc cache).1
               ++ (streamPages a up limit incRep rest
                    (i + 2 + (streamMsgs a up limit incRep page (i + 2) cc pc cache).1.length)
                    (streamMsgs a up limit incRep page (i + 2) cc pc cache).2.1
                    (streamMsgs a up limit incRep page (i + 2) cc pc cache).2.2.1
                    (streamMsgs a up limit incRep page (i + 2) cc pc cache).2.2.2.1).1),
           (streamPages a up limit incRep rest
                    (i + 2 + (streamMsgs a up limit incRep page (i + 2) cc pc cache).1.length)
                    (streamMsgs a up limit incRep page (i + 2) cc pc cache).2.1
                    (streamMsgs a up limit incRep page (i + 2) cc pc cache).2.2.1
                    (streamMsgs a up limit incRep page (i + 2) cc pc cache).2.2.2.1).2) := by
      rw [streamPages]
      rw [if_neg h]
      dsimp only
      cases hexit3 : (streamMsgs a up limit incRep page (i + 2) cc pc cache).2.2.2.2 with
      | returned => exact absurd hexit3 hexitF
      | broke =>
        rw [if_neg hbrkN]
        simp [List.append_assoc]
      | finished =>
        rw [if_neg hbrkN]
        simp [List.append_assoc]
    rw [heval]
    have hnoAb : StreamEvent.check true ∉
        (streamMsgs a up limit incRep page (i + 2) cc pc cache).1 := by
      apply m1
      intro hEq
      exact hexitF hEq
    refine ⟨?_, ?_, ?_, ?_, ?_, ?_⟩
    · intro hret hm
      rcases List.mem_append.mp hm with hm1 | hm2
      · simp at hm1
      rcases List.mem_append.mp hm2 with hm3 | hm4
      · exact hnoAb hm3
      · exact p1 hret hm4
    · refine afterAbort_append (by intro hm; simp at hm) ?_
      exact afterAbort_append hnoAb p2
    · exact predOkB_append rfl (predOkB_append (predOkB_of_no_p m3) p3)
    · exact predOkB_append rfl (predOkB_append m4 p4)
    · exact predOkB_append rfl (predOkB_append m5 p5)
    · exact predOkB_append rfl (predOkB_append m6 p6)

/-- The safety invariants of the event trace of a whole streaming response,
at the Bool level. -/
theorem streamRun_inv (a : Nat) (up : StreamUpstream) (limit : Option Nat) (incRep : Bool)
    (pages : List (List SnapMessage)) :
    afterAbortOnlyChecks (streamRun a up limit incRep pages).1 = true
    ∧ predOkB isCallPageB isCheckB (streamRun a up limit incRep pages).1 = true
    ∧ predOkB isEmitPostB isCheckB (streamRun a up limit incRep pages).1 = true
    ∧ predOkB isReact0B isCheckB (streamRun a up limit incRep pages).1 = true
    ∧ predOkB isReact1B isReact0B (streamRun a up limit incRep pages).1 = true := by
  by_cases h4 : a ≤ 4
  · unfold streamRun
    by_cases h0 : a ≤ 0
    · rw [if_pos h0]
      exact ⟨rfl, rfl, rfl, rfl, rfl⟩
    · rw [if_neg h0]
      by_cases h1 : a ≤ 1
      · rw [if_pos h1]
        exact ⟨rfl, rfl, rfl, rfl, rfl⟩
      · rw [if_neg h1]
        by_cases h3 : a ≤ 3
        · rw [if_pos h3]
          exact ⟨rfl, rfl, rfl, rfl, rfl⟩
        · rw [if_neg h3, if_pos h4]
          exact ⟨rfl, rfl, rfl, rfl, rfl⟩
  · obtain ⟨p1, p2, p3, p4, p5, p6⟩ :=
      streamPages_inv a up limit incRep pages 6 0 0 (up.warmCache, [])
    have heval : (streamRun a up limit incRep pages).1
        = [StreamEvent.check false, StreamEvent.check false, StreamEvent.callUserData,
           StreamEvent.check false, StreamEvent.check false, StreamEvent.emitProfile]
          ++ (streamPages a up limit incRep pages 6 0 0 (up.warmCache, [])).1
          ++ (if (streamPages a up limit incRep pages 6 0 0 (up.warmCache, [])).2.2.1 = false
                ∧ (streamPages a up limit incRep pages 6 0 0 (up.warmCache, [])).2.1 = 0
              then [StreamEvent.emitNoPosts] else []) := by
      unfold streamRun
      rw [if_neg (by omega : ¬ a ≤ 0), if_neg (by omega : ¬ a ≤ 1),
        if_neg (by omega : ¬ a ≤ 3), if_neg h4]
    have hpre : StreamEvent.check true ∉
        ([StreamEvent.check false, StreamEvent.check false, StreamEvent.callUserData,
          StreamEvent.check false, StreamEvent.check false, StreamEvent.emitProfile]
          : List StreamEvent) := by decide
    by_cases hnp : (streamPages a up limit incRep pages 6 0 0 (up.warmCache, [])).2.2.1 = false
        ∧ (streamPages a up limit incRep pages 6 0 0 (up.warmCache, [])).2.1 = 0
    · rw [heval, if_pos hnp, List.append_assoc]
      have hnoAb := p1 hnp.1
      refine ⟨?_, ?_, ?_, ?_, ?_⟩
      · refine afterAbort_append hpre (afterAbort_of_noAbort ?_)
        intro hm
        rcases List.mem_append.mp hm with hm1 | hm2
        · exact hnoAb hm1
        · simp at hm2
      · exact predOkB_append (by decide) (predOkB_append p3 (by decide))
      · exact predOkB_append (by decide) (predOkB_append p4 (by decide))
      · exact predOkB_append (by decide) (predOkB_append p5 (by decide))
      · exact predOkB_append (by decide) (predOkB_append p6 (by decide))
    · rw [heval, if_neg hnp, List.append_nil]
      refine ⟨afterAbort_append hpre p2, ?_, ?_, ?_, ?_⟩
      · exact predOkB_append (by decide) p3
      · exact predOkB_append (by decide) p4
      · exact predOkB_append (by decide) p5
      · exact predOkB_append (by decide) p6

/-- Claim C7.  The route forces includeReactions and includeParents off when
all is set, yet the streaming loop still dispatches the two reactionsByCast
requests for every emitted cast and emits the fetched (non-zero) tallies. -/
theorem claim_C7 :
    (routeNormalize qC7).includeReactions = false
    ∧ (routeNormalize qC7).includeParents = false
    ∧ qC7.all = true
    ∧ StreamEvent.callReaction 0 ∈ handleStream 1000000 upC7 qC7 [[castMsgC7]]
    ∧ StreamEvent.callReaction 1 ∈ handleStream 1000000 upC7 qC7 [[castMsgC7]]
    ∧ StreamEvent.emitReactions 3 1 ∈ handleStream 1000000 upC7 qC7 [[castMsgC7]]
    ∧ StreamEvent.emitReactions 0 0 ∉ handleStream 1000000 upC7 qC7 [[castMsgC7]] := by
  refine ⟨rfl, rfl, rfl, by decide, by decide, by decide, by decide⟩

/-- Every event of the batch drain is one of the two reactionsByCast
dispatches of a processSingleItem call. -/
theorem drainEvents_mem (ws : List String) :
    ∀ e ∈ drainEvents ws,
      e = StreamEvent.callReaction 0 ∨ e = StreamEvent.callReaction 1 := by
  induction ws with
  | nil => intro e he; simp [drainEvents] at he
  | cons w ws ih =>
    intro e he
    simp only [drainEvents, List.mem_cons] at he
    rcases he with h | h | h
    · exact Or.inl h
    · exact Or.inr h
    · exact ih e h

/-- The batch drain issues exactly two dispatches per queued waiter. -/
theorem drainEvents_length (ws : List String) :
    (drainEvents ws).length = 2 * ws.length := by
  induction ws with
  | nil => rfl
  | cons w ws ih =>
    simp only [drainEvents, List.length_cons, ih]
    omega

/-- Claim C8 (corrected).  Within the streaming handler itself the claimed
discipline holds: once a cancellation check observes the abort, every later
handler event is itself a check (the handler issues no further upstream call
and writes no further output fragment), and every page fetch, emitted post
and reaction-enrichment dispatch of the handler is immediately preceded by a
cancellation check, the Like/Recast pair dispatched together behind its one
check.  But each reaction enrichment also pushes a waiter into the reactions
batch processor, whose drain performs no abort check and issues two further
reactionsByCast dispatches per queued waiter; so whenever the handler
observed the abort and left a nonempty queue, the full trace contains an
upstream dispatch strictly after the observed abort — the claim that once
aborted no further upstream calls are issued fails for the program. -/
theorem claim_C8 (a : Nat) (up : StreamUpstream) (q : RouteQuery)
    (pages : List (List SnapMessage)) :
    (∀ (i j : Nat) (e : StreamEvent), i < j →
        (handleStream a up q pages)[i]? = some (StreamEvent.check true) →
        (handleStream a up q pages)[j]? = some e → isCheckB e = true)
    ∧ (∀ (j : Nat), (handleStream a up q pages)[j]? = some StreamEvent.callPage →
        ∃ (i : Nat) (e2 : StreamEvent), i + 1 = j
          ∧ (handleStream a up q pages)[i]? = some e2 ∧ isCheckB e2 = true)
    ∧ (∀ (j : Nat) (h : String),
        (handleStream a up q pages)[j]? = some (StreamEvent.emitPost h) →
        ∃ (i : Nat) (e2 : StreamEvent), i + 1 = j
          ∧ (handleStream a up q pages)[i]? = some e2 ∧ isCheckB e2 = true)
    ∧ (∀ (j : Nat), (handleStream a up q pages)[j]? = some (StreamEvent.callReaction 0) →
        ∃ (i : Nat) (e2 : StreamEvent), i + 1 = j
          ∧ (handleStream a up q pages)[i]? = some e2 ∧ isCheckB e2 = true)
    ∧ (∀ (j : Nat), (handleStream a up q pages)[j]? = some (StreamEvent.callReaction 1) →
        ∃ (i : Nat) (e2 : StreamEvent), i + 1 = j
          ∧ (handleStream a up q pages)[i]? = some e2 ∧ isReact0B e2 = true)
    ∧ (∀ e ∈ drainEvents (streamWaiters a up q pages),
        isCheckB e = false
          ∧ (e = StreamEvent.callReaction 0 ∨ e = StreamEvent.callReaction 1))
    ∧ (drainEvents (streamWaiters a up q pages)).length
        = 2 * (streamWaiters a up q pages).length
    ∧ (StreamEvent.check true ∈ handleStream a up q pages →
        streamWaiters a up q pages ≠ [] →
        ∃ (i : Nat), i < (handleStream a up q pages).length
          ∧ (handleStreamFull a up q pages)[i]? = some (StreamEvent.check true)
          ∧ (handleStreamFull a up q pages)[(handleStream a up q pages).length]?
              = some (StreamEvent.callReaction 0)) := by
  obtain ⟨r1, r2, r3, r4, r5⟩ :=
    streamRun_inv a up (routeNormalize q).limit (routeNormalize q).includeReplies pages
  refine ⟨?_, ?_, ?_, ?_, ?_, ?_, drainEvents_length _, ?_⟩
  · exact afterAbort_spec r1
  · intro j hj
    exact predOkB_spec r2 j _ hj rfl
  · intro j h hj
    exact predOkB_spec r3 j _ hj rfl
  · intro j hj
    exact predOkB_spec r4 j _ hj rfl
  · intro j hj
    exact predOkB_spec r5 j _ hj rfl
  · intro e he
    rcases drainEvents_mem _ e he with h | h
    · exact ⟨by rw [h]; rfl, Or.inl h⟩
    · exact ⟨by rw [h]; rfl, Or.inr h⟩
  · intro hck hw
    obtain ⟨i, hi⟩ := List.getElem?_of_mem hck
    have hlt : i < (handleStream a up q pages).length := by
      by_contra hge
      rw [List.getElem?_eq_none (by omega)] at hi
      exact Option.noConfusion hi
    refine ⟨i, hlt, ?_, ?_⟩
    · unfold handleStreamFull
      rw [List.getElem?_append_left hlt]
      exact hi
    · unfold handleStreamFull
      rw [List.getElem?_append_right (le_refl _), Nat.sub_self]
      cases hws : streamWaiters a up q pages with
      | nil => exact absurd hws hw
      | cons w ws2 => rfl

/-- Counterexample to claim C8 as stated: the client aborts while the handler
processes the first cast, after the reaction enrichment already ran and
pushed its batch waiter; the handler observes the abort (index 14 of the
trace) and returns, and the BATCH_TIMEOUT drain of the reactions batch
processor then re-dispatches the waiter's two reactionsByCast requests
(indices 15 and 16) — upstream calls issued after the cancellation signal
was observed as aborted. -/
theorem claim_C8_counterexample :
    (handleStreamFull 13 upC7 qC7 [[castMsgC7]])[14]? = some (StreamEvent.check true)
    ∧ (handleStreamFull 13 upC7 qC7 [[castMsgC7]])[15]? = some (StreamEvent.callReaction 0)
    ∧ (handleStreamFull 13 upC7 qC7 [[castMsgC7]])[16]? = some (StreamEvent.callReaction 1)
    ∧ ¬ (∀ (i j : Nat) (e : StreamEvent), i < j →
        (handleStreamFull 13 upC7 qC7 [[castMsgC7]])[i]? = some (StreamEvent.check true) →
        (handleStreamFull 13 upC7 qC7 [[castMsgC7]])[j]? = some e → isCheckB e = true) := by
  refine ⟨by decide, by decide, by decide, ?_⟩
  intro hAll
  have h := hAll 14 15 (StreamEvent.callReaction 0) (by omega) (by decide) (by decide)
  exact absurd h (by decide)

/-- Witness for C8 on concrete traces: an abort observed at index 10 of the
early-abort trace is followed only by checks; the page fetch, post emission
and reaction dispatches of the full-run trace each sit right after a check;
a concrete drain event is an unchecked reaction dispatch; and the aborted
one-cast run exhibits the post-abort drain dispatch. -/
theorem claim_C8_witness :
    isCheckB (StreamEvent.check true) = true
    ∧ (∃ (i : Nat) (e2 : StreamEvent), i + 1 = 7
        ∧ (handleStream 1000000 upC7 qC7 [[castMsgC7]])[i]? = some e2
        ∧ isCheckB e2 = true)
    ∧ (∃ (i : Nat) (e2 : StreamEvent), i + 1 = 9
        ∧ (handleStream 1000000 upC7 qC7 [[castMsgC7]])[i]? = some e2
        ∧ isCheckB e2 = true)
    ∧ (∃ (i : Nat) (e2 : StreamEvent), i + 1 = 11
        ∧ (handleStream 1000000 upC7 qC7 [[castMsgC7]])[i]? = some e2
        ∧ isCheckB e2 = true)
    ∧ (∃ (i : Nat) (e2 : StreamEvent), i + 1 = 12
        ∧ (handleStream 1000000 upC7 qC7 [[castMsgC7]])[i]? = some e2
        ∧ isReact0B e2 = true)
    ∧ (isCheckB (StreamEvent.callReaction 0) = false
        ∧ (StreamEvent.callReaction 0 = StreamEvent.callReaction 0
            ∨ StreamEvent.callReaction 0 = StreamEvent.callReaction 1))
    ∧ (∃ (i : Nat), i < (handleStream 13 upC7 qC7 [[castMsgC7]]).length
        ∧ (handleStreamFull 13 upC7 qC7 [[castMsgC7]])[i]? = some (StreamEvent.check true)
        ∧ (handleStreamFull 13 upC7 qC7
              [[castMsgC7]])[(handleStream 13 upC7 qC7 [[castMsgC7]]).length]?
            = some (StreamEvent.callReaction 0)) := by
  refine ⟨?_, ?_, ?_, ?_, ?_, ?_, ?_⟩
  · exact (claim_C8 9 upC7 qC7 [[castMsgC7]]).1 10 11 (StreamEvent.check true)
      (by omega) (by decide) (by decide)
  · exact (claim_C8 1000000 upC7 qC7 [[castMsgC7]]).2.1 7 (by decide)
  · exact (claim_C8 1000000 upC7 qC7 [[castMsgC7]]).2.2.1 9 "h1" (by decide)
  · exact (claim_C8 1000000 upC7 qC7 [[castMsgC7]]).2.2.2.1 11 (by decide)
  · exact (claim_C8 1000000 upC7 qC7 [[castMsgC7]]).2.2.2.2.1 12 (by decide)
  · exact (claim_C8 13 upC7 qC7 [[castMsgC7]]).2.2.2.2.2.1
      (StreamEvent.callReaction 0) (by decide)
  · exact (claim_C8 13 upC7 qC7 [[castMsgC7]]).2.2.2.2.2.2.2 (by decide) (by decide)

end LlmFid
